import Mathlib

/-!
# Verification of the Blade-style template engine (directive transpiler,
# layout composer and compiled-artifact cache)

This file gives a shallow embedding of the engine's compiler pipeline
(`engine/compiler.go`) and of its cache manager (`engine/blade.go`), and
proves or refutes the frozen claims about them.

Template text is modelled as `List Char`.  Each Go regular-expression pass
is translated into an explicit scanner that reproduces the pass's
match/replace behaviour (leftmost match, lazy captures bounded by the first
occurrence of the closing literal, `\s*` runs, `(?s)`/`(?m)` flags,
non-overlapping `ReplaceAll` continuation after each match).  Scanners take
an explicit fuel argument so that they are structurally recursive and
evaluate inside the kernel; a wrapper supplies fuel `length + 1`, which is
always sufficient because every scanner step consumes at least one
character.  Loops of the Go source that can fail to terminate (the
define-extraction loop of `combineWithLayout`, the block-substitution loop,
and the recursion through `@include`) are modelled with an `Option`
result, `none` meaning the Go code does not terminate (or fuel ran out;
for the divergence theorems below the `none` is shown to arise from the
non-advancing branch itself, for every fuel).
-/

namespace Blade

/-- The `{` character (written via its code point). -/
def lb : Char := Char.ofNat 123

/-- The `}` character (written via its code point). -/
def rb : Char := Char.ofNat 125

/-- The single-quote character. -/
def sq : Char := Char.ofNat 39

/-- The double-quote character. -/
def dq : Char := Char.ofNat 34

/-- Whitespace class of Go regexp `\s` (RE2): space, `\t`, `\n`, `\f`, `\r`. -/
def isWS (c : Char) : Bool :=
  c = ' ' || c = Char.ofNat 9 || c = Char.ofNat 10 || c = Char.ofNat 12 || c = Char.ofNat 13

/-- Whitespace as used by `strings.TrimSpace` / `unicode.IsSpace`
(ASCII part: `\s` plus vertical tab). -/
def isSpaceGo (c : Char) : Bool :=
  isWS c || c = Char.ofNat 11

/-- The newline character. -/
def nl : Char := Char.ofNat 10

/-- `leadsWith pat s` holds when `pat` is an initial segment of `s`
(the scanner analogue of a literal match at the current position). -/
def leadsWith : List Char → List Char → Bool
  | [], _ => true
  | _ :: _, [] => false
  | p :: ps, c :: cs => p = c && leadsWith ps cs

/-- First occurrence of `pat` in `s`: returns the text before the
occurrence and the text after it (`strings.Index` + split). -/
def findSub (pat : List Char) : List Char → Option (List Char × List Char)
  | [] => if pat = [] then some ([], []) else none
  | c :: tl =>
    if leadsWith pat (c :: tl) then some ([], (c :: tl).drop pat.length)
    else (findSub pat tl).map (fun p => (c :: p.1, p.2))

/-- `strings.Contains`. -/
def containsSub (pat s : List Char) : Bool := (findSub pat s).isSome

/-- Non-overlapping substring count, as `strings.Count`. -/
def countSub (pat : List Char) : Nat → List Char → Nat
  | 0, _ => 0
  | _ + 1, [] => 0
  | fuel + 1, c :: tl =>
    if leadsWith pat (c :: tl) then 1 + countSub pat fuel ((c :: tl).drop pat.length)
    else countSub pat fuel tl

/-- `strings.Count pat s` (wrapper supplying sufficient fuel). -/
def countOcc (pat s : List Char) : Nat := countSub pat (s.length + 1) s

/-- Strip a maximal leading whitespace run (the greedy `\s*`). -/
def dropWS (s : List Char) : List Char := s.dropWhile (fun c => isWS c)

/-- Trim with the regexp whitespace class (used for captures bounded by
`\s*` on both sides). -/
def trimRe (s : List Char) : List Char :=
  ((s.dropWhile (fun c => isWS c)).reverse.dropWhile (fun c => isWS c)).reverse

/-- Trim as `strings.TrimSpace`. -/
def trimGo (s : List Char) : List Char :=
  ((s.dropWhile (fun c => isSpaceGo c)).reverse.dropWhile (fun c => isSpaceGo c)).reverse

theorem leadsWith_append (pat s t : List Char) (h : leadsWith pat s = true) :
    leadsWith pat (s ++ t) = true := by
  induction pat generalizing s with
  | nil => rfl
  | cons p ps ih =>
    cases s with
    | nil => simp [leadsWith] at h
    | cons c cs =>
      simp only [leadsWith, Bool.and_eq_true] at h ⊢
      exact ⟨h.1, ih cs h.2⟩

theorem leadsWith_parts (pat s : List Char) (h : leadsWith pat s = true) :
    s = pat ++ s.drop pat.length := by
  induction pat generalizing s with
  | nil => simp
  | cons p ps ih =>
    cases s with
    | nil => simp [leadsWith] at h
    | cons c cs =>
      simp only [leadsWith, Bool.and_eq_true, decide_eq_true_eq] at h
      obtain ⟨h1, h2⟩ := h
      simpa [h1] using congrArg (fun l => c :: l) (ih cs h2)

theorem findSub_parts (pat : List Char) :
    ∀ s a b : List Char, findSub pat s = some (a, b) → s = a ++ pat ++ b := by
  intro s
  induction s with
  | nil =>
    intro a b h
    simp only [findSub] at h
    by_cases hp : pat = []
    · simp only [hp, if_true, Option.some.injEq, Prod.mk.injEq] at h
      simp [hp, h.1.symm, h.2.symm]
    · simp [hp] at h
  | cons c tl ih =>
    intro a b h
    simp only [findSub] at h
    by_cases hl : leadsWith pat (c :: tl) = true
    · simp only [hl, if_true, Option.some.injEq, Prod.mk.injEq] at h
      obtain ⟨h1, h2⟩ := h
      subst h1; subst h2
      simpa using leadsWith_parts pat (c :: tl) hl
    · simp only [hl, if_false, Bool.false_eq_true] at h
      cases hfs : findSub pat tl with
      | none => rw [hfs] at h; simp at h
      | some p =>
        rw [hfs] at h
        simp only [Option.map_some', Option.some.injEq, Prod.mk.injEq] at h
        obtain ⟨h1, h2⟩ := h
        subst h2
        have hparts := ih p.1 p.2 (by simpa using hfs)
        rw [← h1]
        simpa using congrArg (fun l => c :: l) hparts

theorem findSub_length_lt (pat s a b : List Char) (hp : pat ≠ [])
    (h : findSub pat s = some (a, b)) : b.length < s.length := by
  have hparts := findSub_parts pat s a b h
  subst hparts
  have : 0 < pat.length := List.length_pos.mpr hp
  simp only [List.length_append]
  omega

/-- First occurrence of `pat` that is not preceded (in the scanned region)
by a character satisfying `stop`: models a lazy `(.*?)` capture whose dot
class excludes characters in `stop` (for Go regexp without `(?s)`, `stop`
is "is a newline"). -/
def findSubB (stop : Char → Bool) (pat : List Char) : List Char → Option (List Char × List Char)
  | [] => none
  | c :: tl =>
    if leadsWith pat (c :: tl) then some ([], (c :: tl).drop pat.length)
    else if stop c then none
    else (findSubB stop pat tl).map (fun p => (c :: p.1, p.2))

theorem findSubB_parts (stop : Char → Bool) (pat : List Char) :
    ∀ s a b : List Char, findSubB stop pat s = some (a, b) → s = a ++ pat ++ b := by
  intro s
  induction s with
  | nil => intro a b h; simp [findSubB] at h
  | cons c tl ih =>
    intro a b h
    simp only [findSubB] at h
    by_cases hl : leadsWith pat (c :: tl) = true
    · simp only [hl, if_true, Option.some.injEq, Prod.mk.injEq] at h
      obtain ⟨h1, h2⟩ := h
      subst h1; subst h2
      simpa using leadsWith_parts pat (c :: tl) hl
    · simp only [hl, if_false, Bool.false_eq_true] at h
      by_cases hs : stop c = true
      · simp [hs] at h
      · simp only [hs, if_false, Bool.false_eq_true] at h
        cases hfs : findSubB stop pat tl with
        | none => rw [hfs] at h; simp at h
        | some p =>
          rw [hfs] at h
          simp only [Option.map_some', Option.some.injEq, Prod.mk.injEq] at h
          obtain ⟨h1, h2⟩ := h
          subst h2
          rw [← h1]
          simpa using congrArg (fun l => c :: l) (ih p.1 p.2 (by simpa using hfs))

theorem findSubB_length_lt (stop : Char → Bool) (pat s a b : List Char) (hp : pat ≠ [])
    (h : findSubB stop pat s = some (a, b)) : b.length < s.length := by
  have hparts := findSubB_parts stop pat s a b h
  subst hparts
  have : 0 < pat.length := List.length_pos.mpr hp
  simp only [List.length_append]
  omega

/-! ## Generic fueled scanners

`scanGo try1` mirrors `regexp.ReplaceAllStringFunc`: at each position it
asks `try1` for a match starting exactly there; on a match it emits the
replacement and resumes after the matched span (replacements are not
re-scanned), otherwise it copies one character.  `findGo try1` mirrors
`FindStringSubmatch(Index)`: it returns the text before the leftmost match
together with the parsed payload of that match. -/

def scanGo (try1 : List Char → Option (List Char × List Char)) :
    Nat → List Char → List Char
  | 0, s => s
  | _ + 1, [] => []
  | fuel + 1, c :: tl =>
    match try1 (c :: tl) with
    | some (r, rest) => r ++ scanGo try1 fuel rest
    | none => c :: scanGo try1 fuel tl

/-- Full replace pass with sufficient fuel. -/
def scanA (try1 : List Char → Option (List Char × List Char)) (s : List Char) : List Char :=
  scanGo try1 s.length s

def findGo {α : Type} (try1 : List Char → Option α) :
    Nat → List Char → Option (List Char × α)
  | 0, _ => none
  | _ + 1, [] => none
  | fuel + 1, c :: tl =>
    match try1 (c :: tl) with
    | some a => some ([], a)
    | none => (findGo try1 fuel tl).map (fun p => (c :: p.1, p.2))

/-- Leftmost match search with sufficient fuel. -/
def findA {α : Type} (try1 : List Char → Option α) (s : List Char) : Option (List Char × α) :=
  findGo try1 s.length s

/-- A match-attempt function whose matched span always has positive length
(every `try1` below consumes at least the literal that triggered it). -/
def TryDec (try1 : List Char → Option (List Char × List Char)) : Prop :=
  ∀ s r rest, try1 s = some (r, rest) → rest.length < s.length

/-- A match-attempt function that can only fire on a fixed trigger
character (the first character of the pattern's literal head). -/
def TryTrig {α : Type} (try1 : List Char → Option α) (trig : Char) : Prop :=
  ∀ c tl a, try1 (c :: tl) = some a → c = trig

theorem try_none_of_trig {α : Type} {try1 : List Char → Option α} {trig : Char}
    (ht : TryTrig try1 trig) {c : Char} (tl : List Char) (hc : c ≠ trig) :
    try1 (c :: tl) = none := by
  cases h : try1 (c :: tl) with
  | none => rfl
  | some a => exact absurd (ht c tl a h) hc

theorem scanGo_nil (try1 : List Char → Option (List Char × List Char)) (f : Nat) :
    scanGo try1 f [] = [] := by
  cases f <;> rfl

theorem scanGo_fi (try1 : List Char → Option (List Char × List Char)) (hdec : TryDec try1) :
    ∀ f1 f2 s, s.length ≤ f1 → s.length ≤ f2 → scanGo try1 f1 s = scanGo try1 f2 s := by
  intro f1
  induction f1 with
  | zero =>
    intro f2 s h1 _
    have : s = [] := List.length_eq_zero.mp (Nat.le_zero.mp h1)
    subst this
    simp [scanGo_nil]
  | succ f ih =>
    intro f2 s h1 h2
    cases s with
    | nil => simp [scanGo_nil]
    | cons c tl =>
      cases f2 with
      | zero => simp at h2
      | succ g =>
        show scanGo try1 (f + 1) (c :: tl) = scanGo try1 (g + 1) (c :: tl)
        simp only [scanGo]
        cases h : try1 (c :: tl) with
        | some p =>
          have hlt := hdec _ _ _ h
          simp only [List.length_cons] at h1 h2 hlt
          exact congrArg (p.1 ++ ·) (ih g p.2 (by omega) (by omega))
        | none =>
          simp only [List.length_cons] at h1 h2
          exact congrArg (c :: ·) (ih g tl (by omega) (by omega))

theorem scanA_cons_none (try1 : List Char → Option (List Char × List Char))
    (c : Char) (tl : List Char) (h : try1 (c :: tl) = none) :
    scanA try1 (c :: tl) = c :: scanA try1 tl := by
  simp [scanA, scanGo, h]

theorem scanA_cons_some (try1 : List Char → Option (List Char × List Char))
    (hdec : TryDec try1) (c : Char) (tl r rest : List Char)
    (h : try1 (c :: tl) = some (r, rest)) :
    scanA try1 (c :: tl) = r ++ scanA try1 rest := by
  have hlt := hdec _ _ _ h
  simp only [List.length_cons] at hlt
  show scanGo try1 (tl.length + 1) (c :: tl) = r ++ scanGo try1 rest.length rest
  simp only [scanGo, h]
  exact congrArg (r ++ ·) (scanGo_fi try1 hdec tl.length rest.length rest (by omega) (by omega))

theorem scanA_append_clean (try1 : List Char → Option (List Char × List Char))
    (trig : Char) (ht : TryTrig try1 trig) :
    ∀ A s : List Char, (∀ c ∈ A, c ≠ trig) →
      scanA try1 (A ++ s) = A ++ scanA try1 s := by
  intro A
  induction A with
  | nil => intro s _; rfl
  | cons a A ih =>
    intro s hA
    have ha : a ≠ trig := hA a (List.mem_cons_self a A)
    rw [List.cons_append,
      scanA_cons_none try1 a (A ++ s) (try_none_of_trig ht (A ++ s) ha),
      ih s (fun c hc => hA c (List.mem_cons_of_mem a hc))]
    rfl

theorem scanA_clean_id (try1 : List Char → Option (List Char × List Char))
    (trig : Char) (ht : TryTrig try1 trig) :
    ∀ s : List Char, (∀ c ∈ s, c ≠ trig) → scanA try1 s = s := by
  intro s
  induction s with
  | nil => intro _; rfl
  | cons c tl ih =>
    intro h
    rw [scanA_cons_none try1 c tl
      (try_none_of_trig ht tl (h c (List.mem_cons_self c tl)))]
    rw [ih (fun x hx => h x (List.mem_cons_of_mem c hx))]

theorem findGo_nil {α : Type} (try1 : List Char → Option α) (f : Nat) :
    findGo try1 f [] = none := by
  cases f <;> rfl

theorem findA_cons_none {α : Type} (try1 : List Char → Option α)
    (c : Char) (tl : List Char) (h : try1 (c :: tl) = none) :
    findA try1 (c :: tl) = (findA try1 tl).map (fun p => (c :: p.1, p.2)) := by
  simp [findA, findGo, h]

theorem findA_cons_some {α : Type} (try1 : List Char → Option α)
    (c : Char) (tl : List Char) (a : α) (h : try1 (c :: tl) = some a) :
    findA try1 (c :: tl) = some ([], a) := by
  simp [findA, findGo, h]

theorem findA_append_clean {α : Type} (try1 : List Char → Option α)
    (trig : Char) (ht : TryTrig try1 trig) :
    ∀ A s : List Char, (∀ c ∈ A, c ≠ trig) →
      findA try1 (A ++ s) = (findA try1 s).map (fun p => (A ++ p.1, p.2)) := by
  intro A
  induction A with
  | nil =>
    intro s _
    cases h : findA try1 s <;> simp [h]
  | cons a A ih =>
    intro s hA
    have ha : a ≠ trig := hA a (List.mem_cons_self a A)
    rw [List.cons_append,
      findA_cons_none try1 a (A ++ s) (try_none_of_trig ht (A ++ s) ha),
      ih s (fun c hc => hA c (List.mem_cons_of_mem a hc))]
    cases findA try1 s <;> simp

/-! ## The `expr` package: lexer, parser, AST (`engine/expr`)

ASCII model: `unicode.IsLetter`/`IsDigit` are modelled by the ASCII
classes (all template inputs considered here are ASCII). -/

def isLetterGo (c : Char) : Bool := c.isAlpha

def isDigitGo (c : Char) : Bool := c.isDigit

/-- Character class of the lexer's operator fallback (`+-*/%&><=`). -/
def isOpChar (c : Char) : Bool :=
  c = '+' || c = '-' || c = '*' || c = '/' || c = '%' || c = '&' || c = '>' || c = '<' || c = '='

/-- `\w` of Go regexp (ASCII only in RE2): `[0-9A-Za-z_]`. -/
def isWordChar (c : Char) : Bool := isLetterGo c || isDigitGo c || c = '_'

/-- The backslash character. -/
def bs : Char := Char.ofNat 92

/-- Tokens of `expr.Lexer` (`TokEOF` is represented by the end of the
token list). -/
inductive Tok where
  | ident (v : List Char)
  | dollarIdent (v : List Char)
  | dot
  | dotSpaced
  | lbrack
  | rbrack
  | str (v : List Char)
  | num (v : List Char)
  | lparen
  | rparen
  | pipe
  | comma
  | op (v : List Char)
  | other (v : List Char)
deriving DecidableEq, Repr

/-- The string-literal loop of `Lexer.NextToken` (quote already consumed):
collects characters until the closing quote, keeping backslash-escape
pairs verbatim; at end of input it stops (Go's sentinel `0` rune ends the
loop; a trailing lone backslash appends the sentinel as Go does). -/
def lexStr (q : Char) : List Char → (List Char × List Char)
  | [] => ([], [])
  | c :: tl =>
    if c = bs then
      match tl with
      | [] => ([bs, Char.ofNat 0], [])
      | d :: tl2 =>
        let p := lexStr q tl2
        (bs :: d :: p.1, p.2)
    else if c = q then ([], tl)
    else
      let p := lexStr q tl
      (c :: p.1, p.2)

/-- Word run after `$` (`letters/digits/_`). -/
def takeWordD (s : List Char) : List Char :=
  s.takeWhile (fun c => isLetterGo c || isDigitGo c || c = '_')

/-- Identifier run (letters/digits/`_`/`.` — the Go lexer lets a bare
identifier swallow dots). -/
def takeIdentGo (s : List Char) : List Char :=
  s.takeWhile (fun c => isLetterGo c || isDigitGo c || c = '_' || c = '.')

/-- Number run (digits and dots). -/
def takeNum (s : List Char) : List Char :=
  s.takeWhile (fun c => isDigitGo c || c = '.')

/-- `Lexer.NextToken` with its `hadSpace` flag; `none` is `TokEOF`. -/
def nextTok : List Char → Bool → Option (Tok × List Char)
  | [], _ => none
  | c :: tl, hadSpace =>
    if isSpaceGo c then nextTok tl true
    else if c = '|' then some (.pipe, tl)
    else if c = '(' then some (.lparen, tl)
    else if c = ')' then some (.rparen, tl)
    else if c = '.' then some (if hadSpace then .dotSpaced else .dot, tl)
    else if c = '[' then some (.lbrack, tl)
    else if c = ']' then some (.rbrack, tl)
    else if c = ',' then some (.comma, tl)
    else if c = '$' then
      let w := takeWordD tl
      some (.dollarIdent w, tl.drop w.length)
    else if c = dq || c = sq then
      let p := lexStr c tl
      some (.str p.1, p.2)
    else if isDigitGo c then
      let w := takeNum (c :: tl)
      some (.num w, (c :: tl).drop w.length)
    else if isLetterGo c then
      let w := takeIdentGo (c :: tl)
      some (.ident w, (c :: tl).drop w.length)
    else if isOpChar c then some (.op [c], tl)
    else some (.other [c], tl)

/-- Tokenize the whole input (fueled; `nextTok` consumes at least one
character per produced token, so `length + 1` fuel always suffices). -/
def tokenizeGo : Nat → List Char → List Tok
  | 0, _ => []
  | fuel + 1, s =>
    match nextTok s false with
    | none => []
    | some (t, rest) => t :: tokenizeGo fuel rest

def toks (s : List Char) : List Tok := tokenizeGo (s.length + 1) s

/-- AST of `engine/expr` (`Expr` and its node structs). -/
inductive GExpr where
  | ident (n : List Char)
  | dollarIdent (n : List Char)
  | strLit (v : List Char)
  | numLit (v : List Char)
  | dotAccess (base : GExpr) (field : List Char)
  | indexAccess (base : GExpr) (key : GExpr)
  | callExpr (fn : GExpr) (args : List GExpr)
  | pipeExpr (l r : GExpr)
  | current
deriving Repr

/-- `containsCall` closure of `Compiler.processVariables`. -/
def containsCall : GExpr → Bool
  | .callExpr _ _ => true
  | .pipeExpr l r => containsCall l || containsCall r
  | .dotAccess b _ => containsCall b
  | .indexAccess b k => containsCall b || containsCall k
  | _ => false

mutual

/-- `Parser.Parse` / `parsePipe`: primary, optionally `| primary`. -/
def parsePipe : Nat → List Tok → Option (GExpr × List Tok)
  | 0, _ => none
  | f + 1, ts =>
    match parsePrimary f ts with
    | none => none
    | some (left, ts1) =>
      match ts1 with
      | .pipe :: ts2 =>
        match parsePrimary f ts2 with
        | none => none
        | some (right, ts3) => some (.pipeExpr left right, ts3)
      | _ => some (left, ts1)

/-- `Parser.parsePrimary`: base token, then (for ident/dollar/dot bases)
field/index chain and space-separated call arguments;
string/number/parenthesised expressions return early, as in the source. -/
def parsePrimary : Nat → List Tok → Option (GExpr × List Tok)
  | 0, _ => none
  | f + 1, ts =>
    match ts with
    | .dollarIdent n :: ts1 => parsePost f (.dollarIdent n) ts1
    | .ident n :: ts1 => parsePost f (.ident n) ts1
    | .dot :: .ident fld :: ts2 => parsePost f (.dotAccess .current fld) ts2
    | .dot :: ts1 => parsePost f .current ts1
    | .dotSpaced :: .ident fld :: ts2 => parsePost f (.dotAccess .current fld) ts2
    | .dotSpaced :: ts1 => parsePost f .current ts1
    | .str v :: ts1 => some (.strLit v, ts1)
    | .num v :: ts1 => some (.numLit v, ts1)
    | .lparen :: ts1 =>
      match parsePipe f ts1 with
      | none => none
      | some (e, ts2) =>
        match ts2 with
        | .rparen :: ts3 => some (e, ts3)
        | _ => none
    | _ => none

/-- Chain + argument step shared by the ident/dollar/dot cases of
`parsePrimary`. -/
def parsePost : Nat → GExpr → List Tok → Option (GExpr × List Tok)
  | 0, _, _ => none
  | f + 1, base, ts =>
    match parseChain f base ts with
    | none => none
    | some (b2, ts1) =>
      match ts1 with
      | .dollarIdent _ :: _ | .ident _ :: _ | .str _ :: _ | .num _ :: _
      | .lparen :: _ | .dot :: _ | .dotSpaced :: _ =>
        match parseArgs f [] ts1 with
        | none => none
        | some (args, ts2) => some (.callExpr b2 args, ts2)
      | _ => some (b2, ts1)

/-- `Parser.parseFieldIndexChain`: follow `.field` and `[key]` suffixes
(`.` must be followed by an identifier, else a parse error; only
`TokDot`, not `TokDotSpaced`, continues a chain). -/
def parseChain : Nat → GExpr → List Tok → Option (GExpr × List Tok)
  | 0, _, _ => none
  | f + 1, base, ts =>
    match ts with
    | .dot :: .ident fld :: ts2 => parseChain f (.dotAccess base fld) ts2
    | .dot :: _ => none
    | .lbrack :: .str v :: .rbrack :: ts2 =>
      parseChain f (.indexAccess base (.strLit v)) ts2
    | .lbrack :: .num v :: .rbrack :: ts2 =>
      parseChain f (.indexAccess base (.numLit v)) ts2
    | .lbrack :: .dollarIdent n :: .rbrack :: ts2 =>
      parseChain f (.indexAccess base (.dollarIdent n)) ts2
    | .lbrack :: .ident n :: .rbrack :: ts2 =>
      parseChain f (.indexAccess base (.ident n)) ts2
    | .lbrack :: _ => none
    | _ => some (base, ts)

/-- The call-argument loop of `parsePrimary` (stops at pipe, `)` or EOF;
commas are skipped; each argument is a full `Parse`). -/
def parseArgs : Nat → List GExpr → List Tok → Option (List GExpr × List Tok)
  | 0, _, _ => none
  | f + 1, acc, ts =>
    match ts with
    | [] => some (acc.reverse, [])
    | .pipe :: _ => some (acc.reverse, ts)
    | .rparen :: _ => some (acc.reverse, ts)
    | .comma :: ts1 => parseArgs f acc ts1
    | _ =>
      match parsePipe f ts with
      | none => none
      | some (e, ts1) => parseArgs f (e :: acc) ts1

end

/-- Top-level `Parser.Parse` on a character string (fuel generously
exceeds the parser's possible recursion depth for the token list: every
few nested frames consume a token). -/
def parseExprStr (s : List Char) : Option (GExpr × List Tok) :=
  let ts := toks s
  parsePipe (8 * ts.length + 16) ts

/-- `tryASTToTemplate` of `engine/compiler.go`: the Go helper asserts the
interface `interface{ ToTemplate() string }` on the AST node; no node
type of package `expr` defines a `ToTemplate() string` method (only the
package-level function `ToTemplate(e Expr) (string, error)` exists, which
is not a method), so the assertion always fails and the helper always
returns `ok = false`. -/
def tryASTToTemplate (_e : GExpr) : Option (List Char) := none

/-- The `\$(\w+)` → `.${1}` rewrite (used as `sanitize` in the if-pass,
as the conservative fallback in `processVariables`, and in
`processRawVariables`). -/
def d2dGo : Nat → List Char → List Char
  | 0, s => s
  | _ + 1, [] => []
  | fuel + 1, c :: tl =>
    if c = '$' then
      let w := tl.takeWhile (fun x => isWordChar x)
      if w = [] then c :: d2dGo fuel tl
      else '.' :: (w ++ d2dGo fuel (tl.drop w.length))
    else c :: d2dGo fuel tl

def d2d (s : List Char) : List Char := d2dGo s.length s

/-- The replacement computation inside `processVariables`'s
`ReplaceAllStringFunc` callback, applied to the trimmed capture `raw`:
parse; a call-containing expression is preserved verbatim; otherwise (the
`ToTemplate` helper never applies) fall back to `$var → .var`. -/
def varConv (raw : List Char) : List Char :=
  match parseExprStr raw with
  | some (ast, _) =>
    if containsCall ast then raw
    else
      match tryASTToTemplate ast with
      | some s => s
      | none => d2d raw
  | none => d2d raw

theorem findA_clean_none {α : Type} (try1 : List Char → Option α)
    (trig : Char) (ht : TryTrig try1 trig) :
    ∀ s : List Char, (∀ c ∈ s, c ≠ trig) → findA try1 s = none := by
  intro s
  induction s with
  | nil => intro _; rfl
  | cons c tl ih =>
    intro h
    rw [findA_cons_none try1 c tl
      (try_none_of_trig ht tl (h c (List.mem_cons_self c tl)))]
    rw [ih (fun x hx => h x (List.mem_cons_of_mem c hx))]
    rfl

/-! ## Directive literals and basic token parsers -/

/-- `{{` -/
def obr : List Char := [lb, lb]

/-- `}}` -/
def cbr : List Char := [rb, rb]

/-- `{!!` -/
def rawOpen : List Char := [lb, '!', '!']

/-- `!!}` -/
def rawClose : List Char := ['!', '!', rb]

/-- `{{--` -/
def comOpen : List Char := [lb, lb, '-', '-']

/-- `--}}` -/
def comClose : List Char := ['-', '-', rb, rb]

def atExtends : List Char := ("@extends").toList
def atSection : List Char := ("@section").toList
def atEndsection : List Char := ("@endsection").toList
def atYield : List Char := ("@yield").toList
def atInclude : List Char := ("@include").toList
def atIf : List Char := ("@if").toList
def atElseif : List Char := ("@elseif").toList
def atElse : List Char := ("@else").toList
def atEndif : List Char := ("@endif").toList
def atForeach : List Char := ("@foreach").toList
def atEndforeach : List Char := ("@endforeach").toList
def atUnless : List Char := ("@unless").toList
def atEndunless : List Char := ("@endunless").toList
def atPhp : List Char := ("@php").toList
def atEndphp : List Char := ("@endphp").toList

/-- `{{end}}` -/
def endTok : List Char := obr ++ ("end").toList ++ cbr

/-- `{{else}}` -/
def elseTok : List Char := obr ++ ("else").toList ++ cbr

/-- `{{define "n"}}` -/
def defineTok (n : List Char) : List Char :=
  obr ++ ("define ").toList ++ dq :: n ++ dq :: cbr

/-- `{{template "n" .}}` -/
def templateTok (n : List Char) : List Char :=
  obr ++ ("template ").toList ++ dq :: n ++ dq :: (" .").toList ++ cbr

/-- `{{block "n" .}}` -/
def blockTok (n : List Char) : List Char :=
  obr ++ ("block ").toList ++ dq :: n ++ dq :: (" .").toList ++ cbr

/-- Match a literal at the current position. -/
def parseLit (pat s : List Char) : Option (List Char) :=
  if leadsWith pat s then some (s.drop pat.length) else none

/-- Match one expected character. -/
def expectCh (c : Char) : List Char → Option (List Char)
  | [] => none
  | d :: tl => if d = c then some tl else none

theorem parseLit_length_le (pat s r : List Char) (h : parseLit pat s = some r) :
    r.length ≤ s.length := by
  simp only [parseLit] at h
  by_cases hl : leadsWith pat s = true
  · simp only [hl, if_true, Option.some.injEq] at h
    subst h
    simp
  · simp [hl] at h

theorem parseLit_length_lt (pat s r : List Char) (hp : pat ≠ [])
    (h : parseLit pat s = some r) : r.length < s.length := by
  simp only [parseLit] at h
  by_cases hl : leadsWith pat s = true
  · simp only [hl, if_true, Option.some.injEq] at h
    subst h
    have := leadsWith_parts pat s hl
    have hlen : 0 < pat.length := List.length_pos.mpr hp
    conv_rhs => rw [this]
    simp only [List.length_append, List.length_drop]
    omega
  · simp [hl] at h

theorem expectCh_length_lt (c : Char) (s r : List Char) (h : expectCh c s = some r) :
    r.length < s.length := by
  cases s with
  | nil => simp [expectCh] at h
  | cons d tl =>
    simp only [expectCh] at h
    by_cases hd : d = c
    · simp only [hd, if_true, Option.some.injEq] at h
      subst h
      simp
    · simp [hd] at h

theorem dropWS_length_le (s : List Char) : (dropWS s).length ≤ s.length :=
  (List.dropWhile_sublist (l := s) (p := fun c => isWS c)).length_le

/-! ## `processSections` -/

/-- A closing quote of either kind. -/
def expectQuote : List Char → Option (List Char)
  | [] => none
  | d :: tl2 => if d = sq || d = dq then some tl2 else none

theorem expectQuote_length_lt (s r : List Char) (h : expectQuote s = some r) :
    r.length < s.length := by
  cases s with
  | nil => simp [expectQuote] at h
  | cons d tl =>
    simp only [expectQuote] at h
    split at h
    · simp only [Option.some.injEq] at h
      subst h
      simp
    · simp at h

/-- The quoted-name part of the section regexes: an opening quote
(either kind), a nonempty run free of both quote characters, a closing
quote (either kind — Go's character class does not force them to match). -/
def tryQuoteAny : List Char → Option (List Char × List Char)
  | [] => none
  | c :: tl =>
    if c = sq || c = dq then
      let nm := tl.takeWhile (fun x => x ≠ sq && x ≠ dq)
      if nm = [] then none
      else
        match expectQuote (tl.drop nm.length) with
        | none => none
        | some tl2 => some (nm, tl2)
    else none

theorem tryQuoteAny_length_lt (s nm r : List Char) (h : tryQuoteAny s = some (nm, r)) :
    r.length < s.length := by
  cases s with
  | nil => simp [tryQuoteAny] at h
  | cons c tl =>
    simp only [tryQuoteAny] at h
    split at h
    rotate_left
    · exact absurd h (by simp)
    split at h
    · exact absurd h (by simp)
    cases hq : expectQuote (tl.drop (tl.takeWhile (fun x => x ≠ sq && x ≠ dq)).length) with
    | none => rw [hq] at h; simp at h
    | some tl2 =>
      rw [hq] at h
      simp only [Option.some.injEq, Prod.mk.injEq] at h
      obtain ⟨_, h2⟩ := h
      subst h2
      have h1 := expectQuote_length_lt _ _ hq
      have h2 : (tl.drop (tl.takeWhile (fun x => x ≠ sq && x ≠ dq)).length).length ≤ tl.length := by
        rw [List.length_drop]; omega
      simp only [List.length_cons]
      omega

/-- Match of the paired-section regex
`(?s)@section\s*\(\s*['"]([^'"]+)['"]\s*\)\s*(.*?)\s*@endsection`,
replaced by `{{define "$1"}}$2{{end}}`.  The `(?s)` lazy body runs to the
first `@endsection`; the surrounding `\s*` strip its whitespace margins. -/
def trySectionPair (s : List Char) : Option (List Char × List Char) :=
  match parseLit atSection s with
  | none => none
  | some r1 =>
    match expectCh '(' (dropWS r1) with
    | none => none
    | some r3 =>
      match tryQuoteAny (dropWS r3) with
      | none => none
      | some (nm, r5) =>
        match expectCh ')' (dropWS r5) with
        | none => none
        | some r7 =>
          match findSub atEndsection r7 with
          | none => none
          | some (seg, rest) =>
            some (defineTok nm ++ trimRe seg ++ endTok, rest)

/-- Match of the bare-opening section regex
`@section\s*\(\s*['"]([^'"]+)['"]\s*\)\s*` → `{{define "$1"}}`
(the trailing whitespace run is part of the match and is consumed). -/
def trySectionSingle (s : List Char) : Option (List Char × List Char) :=
  match parseLit atSection s with
  | none => none
  | some r1 =>
    match expectCh '(' (dropWS r1) with
    | none => none
    | some r3 =>
      match tryQuoteAny (dropWS r3) with
      | none => none
      | some (nm, r5) =>
        match expectCh ')' (dropWS r5) with
        | none => none
        | some r7 => some (defineTok nm, dropWS r7)

/-- Compile errors (`engine/compiler.go` error returns, as tags). -/
inductive Err where
  | unclosedSection (path : List Char)
  | includeNotFound (nm : List Char)
  | includeCompileFailed (nm : List Char)
  | layoutNotFound (nm : List Char)
  | layoutCompileFailed (nm : List Char)
  | hostSyntax
  | unbalancedBrackets
  | unbalancedDirectives
  | readFailed (path : List Char)
deriving DecidableEq, Repr

/-- `Compiler.processSections`: convert paired then bare section
directives, then reject any leftover `@section`/`@endsection` marker
with an error naming the template. -/
def processSections (content path : List Char) : Except Err (List Char) :=
  let c1 := scanA trySectionPair content
  let c2 := scanA trySectionSingle c1
  if containsSub atSection c2 || containsSub atEndsection c2 then
    .error (.unclosedSection path)
  else .ok c2

/-! ## `processYield` and `processInclude` -/

/-- Name class of the bare third alternative in the yield/include
regexes: letters, digits, underscore, dash, slash, dot. -/
def isBareNameChar (c : Char) : Bool :=
  isLetterGo c || isDigitGo c || c = '_' || c = '-' || c = '/' || c = '.'

/-- The name alternation shared by the yield/include regexes: a
single-quoted name, a double-quoted name, or a bare run of
bare-name characters (each nonempty). -/
def tryNameAlt : List Char → Option (List Char × List Char)
  | [] => none
  | c :: tl =>
    if c = sq then
      let nm := tl.takeWhile (fun x => x ≠ sq)
      if nm = [] then none
      else
        match expectCh sq (tl.drop nm.length) with
        | none => none
        | some r => some (nm, r)
    else if c = dq then
      let nm := tl.takeWhile (fun x => x ≠ dq)
      if nm = [] then none
      else
        match expectCh dq (tl.drop nm.length) with
        | none => none
        | some r => some (nm, r)
    else
      let nm := (c :: tl).takeWhile (fun x => isBareNameChar x)
      if nm = [] then none else some (nm, (c :: tl).drop nm.length)

/-- The optional `(?:\s*\))?` tail: consume `\s*)` when present. -/
def optCloseParen (s : List Char) : List Char :=
  match expectCh ')' (dropWS s) with
  | some r => r
  | none => s

/-- Match of the yield/include shape after its `@`-literal: optional
`\s*(\s*`, the name alternation, optional `\s*)`.  If the
parenthesised path fails the engine backtracks to the un-parenthesised
one (the optional group matches empty). -/
def tryCallShape (lit : List Char) (s : List Char) : Option (List Char × List Char) :=
  match parseLit lit s with
  | none => none
  | some r1 =>
    match expectCh '(' (dropWS r1) with
    | some r2 =>
      match tryNameAlt (dropWS r2) with
      | some (nm, r3) => some (nm, optCloseParen r3)
      | none =>
        match tryNameAlt r1 with
        | some (nm, r3) => some (nm, optCloseParen r3)
        | none => none
    | none =>
      match tryNameAlt r1 with
      | some (nm, r3) => some (nm, optCloseParen r3)
      | none => none

/-- `Compiler.processYield` match: `@yield…` → `{{template "name" .}}`. -/
def tryYield (s : List Char) : Option (List Char × List Char) :=
  (tryCallShape atYield s).map (fun p => (templateTok p.1, p.2))

def processYield (content : List Char) : List Char := scanA tryYield content

/-! ## `processExtends` -/

/-- Match of `@extends\s*\(\s*'([^']+)'\s*\)`: returns the layout name
and the rest after the match. -/
def tryExtends (s : List Char) : Option (List Char × List Char) :=
  match parseLit atExtends s with
  | none => none
  | some r1 =>
    match expectCh '(' (dropWS r1) with
    | none => none
    | some r2 =>
      match expectCh sq (dropWS r2) with
      | none => none
      | some r3 =>
        let nm := r3.takeWhile (fun x => x ≠ sq)
        if nm = [] then none
        else
          match expectCh sq (r3.drop nm.length) with
          | none => none
          | some r4 =>
            match expectCh ')' (dropWS r4) with
            | none => none
            | some r5 => some (nm, r5)

/-- The extends match viewed as a deletion (for `ReplaceAllString` with
the empty replacement). -/
def tryExtendsRepl (s : List Char) : Option (List Char × List Char) :=
  (tryExtends s).map (fun p => ([], p.2))

/-- `Compiler.processExtends`: layout name of the first match, all
matches removed and the result trimmed; without a match the content is
returned unchanged (and the layout name is empty).  The Go function can
never return a non-nil error. -/
def processExtends (s : List Char) : List Char × List Char :=
  match findA tryExtends s with
  | some p => (trimGo (scanA tryExtendsRepl s), p.2.1)
  | none => (s, [])

/-! ## `processInclude` -/

/-- Modelled filesystem: an association list from paths to file
contents (the compiled-cache files of `Compiler.Compile` are absent, so
every compile is a cold compile — the cache-freshness branch of
`Compile` never fires). -/
def fsRead (fs : List (List Char × List Char)) (p : List Char) : Option (List Char) :=
  (fs.find? (fun kv => kv.1 == p)).map (fun kv => kv.2)

def fsHas (fs : List (List Char × List Char)) (p : List Char) : Bool :=
  (fsRead fs p).isSome

/-- `filepath.Join(templatesDir, name)` for slash-clean inputs. -/
def joinPath (dir nm : List Char) : List Char := dir ++ '/' :: nm

/-- Include match: name, matched text (kept verbatim on error) and rest. -/
def tryInclude (s : List Char) : Option (List Char × List Char × List Char) :=
  match tryCallShape atInclude s with
  | none => none
  | some (nm, rest) => some (nm, s.take (s.length - rest.length), rest)

/-- Later (rightmost) failing includes overwrite `includeErr`. -/
def someOr (a : Option Err) (e : Err) : Option Err :=
  match a with
  | some x => some x
  | none => some e

/-- The `ReplaceAllStringFunc` body of `Compiler.processInclude`:
missing target records an error and keeps the match; an existing target
is compiled through the recursive compiler (`Compiler.Compile`) and
spliced in; a failing recursive compile records an error and keeps the
match.  `none` from `recFile` (the recursive compilation does not
terminate) makes the whole pass diverge. -/
def includeScan (recFile : List Char → Option (Except Err (List Char)))
    (dir : List Char) (fs : List (List Char × List Char)) :
    Nat → List Char → Option (List Char × Option Err)
  | 0, s => some (s, none)
  | _ + 1, [] => some ([], none)
  | fuel + 1, c :: tl =>
    match tryInclude (c :: tl) with
    | none => (includeScan recFile dir fs fuel tl).map (fun p => (c :: p.1, p.2))
    | some (nm, matched, rest) =>
      if fsHas fs (joinPath dir nm) then
        match recFile (joinPath dir nm) with
        | none => none
        | some (.error _) =>
          (includeScan recFile dir fs fuel rest).map
            (fun p => (matched ++ p.1, someOr p.2 (.includeCompileFailed nm)))
        | some (.ok comp) =>
          (includeScan recFile dir fs fuel rest).map (fun p => (comp ++ p.1, p.2))
      else
        (includeScan recFile dir fs fuel rest).map
          (fun p => (matched ++ p.1, someOr p.2 (.includeNotFound nm)))

/-- `Compiler.processInclude` (an accumulated error aborts the pass). -/
def processInclude (recFile : List Char → Option (Except Err (List Char)))
    (dir : List Char) (fs : List (List Char × List Char)) (content : List Char) :
    Option (Except Err (List Char)) :=
  match includeScan recFile dir fs (content.length + 1) content with
  | none => none
  | some (_, some e) => some (.error e)
  | some (out, none) => some (.ok out)

/-! ## `processIfStatements`, `processElse`, `processEndif` -/

/-- Horizontal whitespace (the regex class of space and tab). -/
def isHT (c : Char) : Bool := c = ' ' || c = Char.ofNat 9

/-- Index of the last newline inside a whitespace run. -/
def lastNlIdx (w : List Char) : Option Nat :=
  match w.reverse.findIdx? (fun c => c = nl) with
  | none => none
  | some k => some (w.length - 1 - k)

/-- A trailing `\s*$` under `(?m)`: consume the longest whitespace
prefix that ends immediately before a newline (which stays unconsumed)
or at the end of input; also report whether the next scan position is a
line start (the consumed text ended with a newline). -/
def trailEol (s : List Char) : Option (Bool × List Char) :=
  let w := s.takeWhile (fun c => isWS c)
  if s.drop w.length = [] then some (false, [])
  else
    match lastNlIdx w with
    | none => none
    | some j => some (decide (j ≠ 0) && decide (w.getD (j - 1) ' ' = nl), s.drop j)

/-- Line-anchored scanner for the `(?m)^…` passes: matches are attempted
only at line-start positions; the flag after a match is supplied by the
match itself. -/
def lineScan (try1 : List Char → Option (List Char × Bool × List Char)) :
    Nat → Bool → List Char → List Char
  | 0, _, s => s
  | _ + 1, _, [] => []
  | fuel + 1, atStart, c :: tl =>
    if atStart then
      match try1 (c :: tl) with
      | some (r, fl, rest) => r ++ lineScan try1 fuel fl rest
      | none => c :: lineScan try1 fuel (c = nl) tl
    else c :: lineScan try1 fuel (c = nl) tl

def lineScanA (try1 : List Char → Option (List Char × Bool × List Char))
    (s : List Char) : List Char :=
  lineScan try1 s.length true s

/-- Pass 1 of `processIfStatements`:
`(?s)@if\s*\((.*?)\)\s*(.*?)\s*@else\s*(.*?)\s*@endif` →
`{{if cond}}…{{else}}…{{end}}` with `$var` sanitised in the condition. -/
def tryIfElse (s : List Char) : Option (List Char × List Char) :=
  match parseLit atIf s with
  | none => none
  | some r1 =>
    match expectCh '(' (dropWS r1) with
    | none => none
    | some r2 =>
      match findSub [')'] r2 with
      | none => none
      | some (cond, r3) =>
        match findSub atElse r3 with
        | none => none
        | some (seg2, r4) =>
          match findSub atEndif r4 with
          | none => none
          | some (seg3, r5) =>
            some (obr ++ ("if ").toList ++ d2d cond ++ cbr ++ trimRe seg2 ++
              elseTok ++ trimRe seg3 ++ endTok, r5)

/-- Pass 2: `(?s)@if\s*\((.*?)\)\s*(.*?)\s*@endif` → `{{if cond}}…{{end}}`. -/
def tryIfNoElse (s : List Char) : Option (List Char × List Char) :=
  match parseLit atIf s with
  | none => none
  | some r1 =>
    match expectCh '(' (dropWS r1) with
    | none => none
    | some r2 =>
      match findSub [')'] r2 with
      | none => none
      | some (cond, r3) =>
        match findSub atEndif r3 with
        | none => none
        | some (seg2, r4) =>
          some (obr ++ ("if ").toList ++ d2d cond ++ cbr ++ trimRe seg2 ++ endTok, r4)

/-- Pass 3: `(?m)^\s*@elseif\s*\((.*?)\)\s*$` → `{{else if cond}}`
(sanitised condition; the dot class excludes newlines). -/
def tryElseifS (s : List Char) : Option (List Char × Bool × List Char) :=
  let w := s.takeWhile (fun c => isWS c)
  match parseLit atElseif (s.drop w.length) with
  | none => none
  | some r1 =>
    match expectCh '(' (dropWS r1) with
    | none => none
    | some r2 =>
      match findSubB (fun c => c = nl) [')'] r2 with
      | none => none
      | some (cond, r3) =>
        match trailEol r3 with
        | none => none
        | some p => some (obr ++ ("else if ").toList ++ d2d cond ++ cbr, p.1, p.2)

/-- Pass 4: `(?m)^\s*@else\s*$` → `{{else}}`. -/
def tryElseEol (s : List Char) : Option (List Char × Bool × List Char) :=
  let w := s.takeWhile (fun c => isWS c)
  match parseLit atElse (s.drop w.length) with
  | none => none
  | some r1 =>
    match trailEol r1 with
    | none => none
    | some p => some (elseTok, p.1, p.2)

/-- Pass 5: any remaining `@if\s*\((.*?)\)` (single open; no dotall). -/
def tryIfOpen (s : List Char) : Option (List Char × List Char) :=
  match parseLit atIf s with
  | none => none
  | some r1 =>
    match expectCh '(' (dropWS r1) with
    | none => none
    | some r2 =>
      match findSubB (fun c => c = nl) [')'] r2 with
      | none => none
      | some (cond, r3) => some (obr ++ ("if ").toList ++ d2d cond ++ cbr, r3)

/-- Pass 6: `(?m)^[ \t]*@endif[ \t]*$` → `{{end}}`. -/
def tryEndifLine (s : List Char) : Option (List Char × Bool × List Char) :=
  let w := s.takeWhile (fun c => isHT c)
  match parseLit atEndif (s.drop w.length) with
  | none => none
  | some r1 =>
    let r2 := r1.drop (r1.takeWhile (fun c => isHT c)).length
    match r2 with
    | [] => some (endTok, false, [])
    | c :: _ => if c = nl then some (endTok, false, r2) else none

/-- `Compiler.processIfStatements` (six ordered sub-passes). -/
def processIfStatements (content : List Char) : List Char :=
  let c1 := scanA tryIfElse content
  let c2 := scanA tryIfNoElse c1
  let c3 := lineScanA tryElseifS c2
  let c4 := lineScanA tryElseEol c3
  let c5 := scanA tryIfOpen c4
  lineScanA tryEndifLine c5

/-- `processElse` pass 1: `(?m)^\s*@elseif\s*\((.*?)\)` →
`{{else if $1}}` (no sanitising, no end anchor). -/
def tryElseifNS (s : List Char) : Option (List Char × Bool × List Char) :=
  let w := s.takeWhile (fun c => isWS c)
  match parseLit atElseif (s.drop w.length) with
  | none => none
  | some r1 =>
    match expectCh '(' (dropWS r1) with
    | none => none
    | some r2 =>
      match findSubB (fun c => c = nl) [')'] r2 with
      | none => none
      | some (cond, r3) => some (obr ++ ("else if ").toList ++ cond ++ cbr, false, r3)

/-- `processElse` pass 2: `(?m)^\s*@else\s*` → `{{else}}` (the trailing
whitespace run, newlines included, is consumed by the match). -/
def tryElseNoAnchor (s : List Char) : Option (List Char × Bool × List Char) :=
  let w := s.takeWhile (fun c => isWS c)
  match parseLit atElse (s.drop w.length) with
  | none => none
  | some r1 =>
    let w2 := r1.takeWhile (fun c => isWS c)
    let fl :=
      match w2.getLast? with
      | some c => decide (c = nl)
      | none => false
    some (elseTok, fl, r1.drop w2.length)

def processElse (content : List Char) : List Char :=
  lineScanA tryElseNoAnchor (lineScanA tryElseifNS content)

/-- Replace every occurrence of a literal (`strings.ReplaceAll`). -/
def tryLit (pat repl : List Char) (s : List Char) : Option (List Char × List Char) :=
  (parseLit pat s).map (fun r => (repl, r))

def replaceAllLit (pat repl s : List Char) : List Char := scanA (tryLit pat repl) s

/-- `Compiler.processEndif`: `strings.ReplaceAll(content, "@endif", "{{end}}")`. -/
def processEndif (content : List Char) : List Char := replaceAllLit atEndif endTok content

/-! ## `processForeach`, `processEndForeach` -/

/-- The `\s+as\s+` separator attempted at the current position. -/
def tryAsAt (s : List Char) : Option (List Char) :=
  let w := s.takeWhile (fun c => isWS c)
  if w = [] then none
  else
    match parseLit (("as").toList) (s.drop w.length) with
    | none => none
    | some r1 =>
      let w2 := r1.takeWhile (fun c => isWS c)
      if w2 = [] then none else some (r1.drop w2.length)

/-- Lazy split at the first `\s+as\s+` (the capture before it must be
newline-free when the regex lacks `(?s)`). -/
def findAsSplit (noNl : Bool) : Nat → List Char → Option (List Char × List Char)
  | 0, _ => none
  | _ + 1, [] => none
  | fuel + 1, c :: tl =>
    match tryAsAt (c :: tl) with
    | some rest => some ([], rest)
    | none =>
      if noNl && c = nl then none
      else (findAsSplit noNl fuel tl).map (fun p => (c :: p.1, p.2))

def findAsSplitA (noNl : Bool) (s : List Char) : Option (List Char × List Char) :=
  findAsSplit noNl s.length s

/-- The `normalize` closure of `processForeach`. -/
def normCollItem (coll item : List Char) : List Char × List Char :=
  let collT := trimGo coll
  let coll2 :=
    if leadsWith ['$'] collT then '.' :: collT.drop 1
    else if leadsWith ['.'] collT then collT
    else '.' :: collT
  let itemT := trimGo item
  let item2 := if leadsWith ['$'] itemT then itemT else '$' :: itemT
  (coll2, item2)

/-- Body rewrite `{{\s*\$item\.` → `{{ .` (and its `{!!` variant). -/
def tryLoopVar (opn repl itemName : List Char) (s : List Char) :
    Option (List Char × List Char) :=
  match parseLit opn s with
  | none => none
  | some r1 =>
    match expectCh '$' (dropWS r1) with
    | none => none
    | some r2 =>
      match parseLit itemName r2 with
      | none => none
      | some r3 =>
        match expectCh '.' r3 with
        | none => none
        | some r4 => some (repl, r4)

/-- The block terminator `\n[ \t]*@endforeach`. -/
def tryNlEndFE (s : List Char) : Option (List Char) :=
  match expectCh nl s with
  | none => none
  | some r1 => parseLit atEndforeach (r1.drop (r1.takeWhile (fun c => isHT c)).length)

/-- Block foreach:
`(?s)@foreach\s*\((.*?)\s+as\s+(.*?)\)\s*(.*?)\n[ \t]*@endforeach` →
`{{range coll}}body{{end}}` with the loop variable's field accesses
rewritten to the implicit context. -/
def tryForeachBlock (s : List Char) : Option (List Char × List Char) :=
  match parseLit atForeach s with
  | none => none
  | some r1 =>
    match expectCh '(' (dropWS r1) with
    | none => none
    | some r2 =>
      match findAsSplitA false r2 with
      | none => none
      | some (coll, r3) =>
        match findSub [')'] r3 with
        | none => none
        | some (item, r4) =>
          match findA tryNlEndFE r4 with
          | none => none
          | some (seg, rest) =>
            let body := seg.dropWhile (fun c => isWS c)
            let p := normCollItem coll item
            let itemName := p.2.drop 1
            let body2 := scanA (tryLoopVar obr (obr ++ (" .").toList) itemName) body
            let body3 := scanA (tryLoopVar rawOpen (rawOpen ++ (" .").toList) itemName) body2
            some (obr ++ ("range ").toList ++ p.1 ++ cbr ++ body3 ++ endTok, rest)

/-- Single-line foreach opening: `@foreach\s*\((.*?)\s+as\s+(.*?)\)` →
`{{range coll}}` (no dotall: the captures are newline-free). -/
def tryForeachOpen (s : List Char) : Option (List Char × List Char) :=
  match parseLit atForeach s with
  | none => none
  | some r1 =>
    match expectCh '(' (dropWS r1) with
    | none => none
    | some r2 =>
      match findAsSplitA true r2 with
      | none => none
      | some (coll, r3) =>
        match findSubB (fun c => c = nl) [')'] r3 with
        | none => none
        | some (item, r4) =>
          let p := normCollItem coll item
          some (obr ++ ("range ").toList ++ p.1 ++ cbr, r4)

/-- `(?m)^[ \t]*@endforeach[ \t]*$` → `{{end}}`. -/
def tryEndFELine (s : List Char) : Option (List Char × Bool × List Char) :=
  let w := s.takeWhile (fun c => isHT c)
  match parseLit atEndforeach (s.drop w.length) with
  | none => none
  | some r1 =>
    let r2 := r1.drop (r1.takeWhile (fun c => isHT c)).length
    match r2 with
    | [] => some (endTok, false, [])
    | c :: _ => if c = nl then some (endTok, false, r2) else none

def processForeach (content : List Char) : List Char :=
  let c1 := scanA tryForeachBlock content
  let c2 := scanA tryForeachOpen c1
  lineScanA tryEndFELine c2

def processEndForeach (content : List Char) : List Char :=
  replaceAllLit atEndforeach endTok content

/-! ## `processUnless` -/

/-- `(?s)@unless\s*\((.*?)\)\s*(.*?)\s*@endunless` →
`{{if not $1}}$2{{end}}` (condition not sanitised). -/
def tryUnlessBlock (s : List Char) : Option (List Char × List Char) :=
  match parseLit atUnless s with
  | none => none
  | some r1 =>
    match expectCh '(' (dropWS r1) with
    | none => none
    | some r2 =>
      match findSub [')'] r2 with
      | none => none
      | some (cond, r3) =>
        match findSub atEndunless r3 with
        | none => none
        | some (seg, r4) =>
          some (obr ++ ("if not ").toList ++ cond ++ cbr ++ trimRe seg ++ endTok, r4)

/-- `@unless\s*\((.*?)\)` → `{{if not $1}}`. -/
def tryUnlessOpen (s : List Char) : Option (List Char × List Char) :=
  match parseLit atUnless s with
  | none => none
  | some r1 =>
    match expectCh '(' (dropWS r1) with
    | none => none
    | some r2 =>
      match findSubB (fun c => c = nl) [')'] r2 with
      | none => none
      | some (cond, r3) => some (obr ++ ("if not ").toList ++ cond ++ cbr, r3)

def processUnless (content : List Char) : List Char :=
  replaceAllLit atEndunless endTok (scanA tryUnlessOpen (scanA tryUnlessBlock content))

/-! ## `processVariables`, `processRawVariables`, `processComments`, `processPhp` -/

/-- Lazy segment for `\s*(.*?)\s*` ++ terminator without `(?s)`: the
match ends at the first terminator occurrence whose whole accumulated
span (from the opening literal), after trimming its whitespace margins,
is newline-free — leading/trailing newlines can be absorbed by the
`\s*` runs, interior ones cannot, and an interior newline in an earlier
chunk also blocks every longer candidate span. -/
def findSegTrim (term : List Char) : Nat → List Char → List Char →
    Option (List Char × List Char)
  | 0, _, _ => none
  | fuel + 1, acc, s =>
    match findSub term s with
    | none => none
    | some (a, r) =>
      if (trimRe (acc ++ a)).all (fun c => c ≠ nl) then some (acc ++ a, r)
      else findSegTrim term fuel (acc ++ a ++ term) r

def findSegTrimA (term s : List Char) : Option (List Char × List Char) :=
  findSegTrim term (s.length + 1) [] s

/-- `{{\s*(.*?)\s*}}` with the `processVariables` callback: the trimmed
capture is parsed; call-containing expressions are kept verbatim,
everything else falls back to `$var → .var`; the emitted block is
re-spaced as `{{ … }}`. -/
def tryVar (s : List Char) : Option (List Char × List Char) :=
  match parseLit obr s with
  | none => none
  | some r1 =>
    match findSegTrimA cbr r1 with
    | none => none
    | some (seg, rest) =>
      let raw := trimGo (trimRe seg)
      some (obr ++ ' ' :: varConv raw ++ ' ' :: cbr, rest)

/-- `Compiler.processVariables`. -/
def processVariables (content : List Char) : List Char := scanA tryVar content

/-- `{!!\s*(.*?)\s*!!}` → `{{raw expr}}` with `$var → .var`. -/
def tryRaw (s : List Char) : Option (List Char × List Char) :=
  match parseLit rawOpen s with
  | none => none
  | some r1 =>
    match findSegTrimA rawClose r1 with
    | none => none
    | some (seg, rest) => some (obr ++ ("raw ").toList ++ d2d (trimRe seg) ++ cbr, rest)

/-- `Compiler.processRawVariables`. -/
def processRawVariables (content : List Char) : List Char := scanA tryRaw content

/-- `{{--(.*?)--}}` (no dotall: the span must be newline-free) → deleted. -/
def tryComment (s : List Char) : Option (List Char × List Char) :=
  match parseLit comOpen s with
  | none => none
  | some r1 =>
    match findSubB (fun c => c = nl) comClose r1 with
    | none => none
    | some (_, rest) => some ([], rest)

/-- `Compiler.processComments`. -/
def processComments (content : List Char) : List Char := scanA tryComment content

/-- `@php(.*?)@endphp` (no dotall) → deleted. -/
def tryPhp (s : List Char) : Option (List Char × List Char) :=
  match parseLit atPhp s with
  | none => none
  | some r1 =>
    match findSubB (fun c => c = nl) atEndphp r1 with
    | none => none
    | some (_, rest) => some ([], rest)

/-- `Compiler.processPhp`. -/
def processPhp (content : List Char) : List Char := scanA tryPhp content

/-- `Compiler.processAllDirectives`: the fixed pass order of the source
(sections, yield, include, if, else, endif, foreach, endforeach,
variables, raw variables, comments, php, unless); an error from a pass
aborts the chain. -/
def processAllDirectives (recFile : List Char → Option (Except Err (List Char)))
    (dir : List Char) (fs : List (List Char × List Char))
    (content path : List Char) : Option (Except Err (List Char)) :=
  match processSections content path with
  | .error e => some (.error e)
  | .ok c1 =>
    let c2 := processYield c1
    match processInclude recFile dir fs c2 with
    | none => none
    | some (.error e) => some (.error e)
    | some (.ok c3) =>
      let c4 := processIfStatements c3
      let c5 := processElse c4
      let c6 := processEndif c5
      let c7 := processForeach c6
      let c8 := processEndForeach c7
      let c9 := processVariables c8
      let c10 := processRawVariables c9
      let c11 := processComments c10
      let c12 := processPhp c11
      some (.ok (processUnless c12))

/-! ## `combineWithLayout` -/

/-- Define-open match of the extraction loop:
`{{\s*define\s*"([^"]+)"\s*}}` → (name, rest after the open token). -/
def tryDefineStart (s : List Char) : Option (List Char × List Char) :=
  match parseLit obr s with
  | none => none
  | some r1 =>
    match parseLit (("define").toList) (dropWS r1) with
    | none => none
    | some r2 =>
      match expectCh dq (dropWS r2) with
      | none => none
      | some r3 =>
        let nm := r3.takeWhile (fun x => x ≠ dq)
        if nm = [] then none
        else
          match expectCh dq (r3.drop nm.length) with
          | none => none
          | some r4 =>
            match parseLit cbr (dropWS r4) with
            | none => none
            | some r5 => some (nm, r5)

/-- The opener test of the balancing scan: the trimmed token starts with
`define`, `if`, `range`, `with` or `block` (`strings.HasPrefix`, in the
source's order). -/
def isOpenerTok (t : List Char) : Bool :=
  leadsWith (("define").toList) t || leadsWith (("if").toList) t ||
    leadsWith (("range").toList) t || leadsWith (("with").toList) t ||
    leadsWith (("block").toList) t

/-- The balancing scan of `combineWithLayout`: from the body start, find
the `{{…}}` token that closes the define.  Each step locates the next
`{{`, then the next `}}`; the trimmed token between them increments the
depth when it is an opener, and a token equal to `end` closes the define
when the depth is zero, else decrements it.  Returns (body, rest after
the closing `{{end}}`); `none` when the scan falls off the end (the Go
outer loop then retries the same define forever). -/
def findDefEnd : Nat → Nat → List Char → Option (List Char × List Char)
  | 0, _, _ => none
  | fuel + 1, depth, s =>
    match findSub obr s with
    | none => none
    | some (pre, after) =>
      match findSub cbr after with
      | none => none
      | some (seg, rest) =>
        let tok := trimGo seg
        if isOpenerTok tok then
          (findDefEnd fuel (depth + 1) rest).map (fun p => (pre ++ obr ++ seg ++ cbr ++ p.1, p.2))
        else if tok = ("end").toList then
          if depth = 0 then some (pre, rest)
          else (findDefEnd fuel (depth - 1) rest).map (fun p => (pre ++ obr ++ seg ++ cbr ++ p.1, p.2))
        else (findDefEnd fuel depth rest).map (fun p => (pre ++ obr ++ seg ++ cbr ++ p.1, p.2))

def findDefEndA (depth : Nat) (s : List Char) : Option (List Char × List Char) :=
  findDefEnd (s.length + 1) depth s

/-- Go map assignment `defines[name] = body` on the association-list
model (replace an existing key, else append; the list keeps insertion
order — Go map iteration order is unspecified, see `prependDefines`). -/
def insertDef (ds : List (List Char × List Char)) (nm body : List Char) :
    List (List Char × List Char) :=
  match ds.find? (fun kv => kv.1 == nm) with
  | some _ => ds.map (fun kv => if kv.1 == nm then (nm, body) else kv)
  | none => ds ++ [(nm, body)]

def lookupDef (ds : List (List Char × List Char)) (nm : List Char) : Option (List Char) :=
  (ds.find? (fun kv => kv.1 == nm)).map (fun kv => kv.2)

/-- The define-extraction loop (lines 719–771 of `compiler.go`): find a
define open, balance to its end, record the body, splice the block out,
restart from the top.  When the balancing scan fails the Go loop makes
no progress and spins forever — modelled as `none` (and the failure is
fuel-independent since it occurs on the first iteration that hits it). -/
def extractGo : Nat → List (List Char × List Char) → List Char →
    Option (List (List Char × List Char) × List Char)
  | 0, _, _ => none
  | fuel + 1, acc, s =>
    match findA tryDefineStart s with
    | none => some (acc, s)
    | some (pre, nm, bodyStart) =>
      match findDefEndA 0 bodyStart with
      | none => none
      | some (body, rest) => extractGo fuel (insertDef acc nm body) (pre ++ rest)

def extractDefines (s : List Char) : Option (List (List Char × List Char) × List Char) :=
  extractGo (s.length + 1) [] s

/-- `{{\s*template\s*"([^"]+)"\s*\.\s*}}` → (name, rest). -/
def tryTmplName (s : List Char) : Option (List Char × List Char) :=
  match parseLit obr s with
  | none => none
  | some r1 =>
    match parseLit (("template").toList) (dropWS r1) with
    | none => none
    | some r2 =>
      match expectCh dq (dropWS r2) with
      | none => none
      | some r3 =>
        let nm := r3.takeWhile (fun x => x ≠ dq)
        if nm = [] then none
        else
          match expectCh dq (r3.drop nm.length) with
          | none => none
          | some r4 =>
            match expectCh '.' (dropWS r4) with
            | none => none
            | some r5 =>
              match parseLit cbr (dropWS r5) with
              | none => none
              | some r6 => some (nm, r6)

/-- First replacement pass: only the `"content"` placeholder, replaced
by its captured body when one exists, kept verbatim otherwise. -/
def tryTmplContent (defines : List (List Char × List Char)) (s : List Char) :
    Option (List Char × List Char) :=
  match tryTmplName s with
  | none => none
  | some (nm, rest) =>
    if nm = ("content").toList then
      match lookupDef defines nm with
      | some body => some (body, rest)
      | none => some (s.take (s.length - rest.length), rest)
    else none

/-- Second pass: any `{{template "name" .}}` with a captured body. -/
def tryTmplAny (defines : List (List Char × List Char)) (s : List Char) :
    Option (List Char × List Char) :=
  match tryTmplName s with
  | none => none
  | some (nm, rest) =>
    match lookupDef defines nm with
    | some body => some (body, rest)
    | none => some (s.take (s.length - rest.length), rest)

/-- `{{\s*end\s*}}`. -/
def tryEndTok (s : List Char) : Option (List Char) :=
  match parseLit obr s with
  | none => none
  | some r1 =>
    match parseLit (("end").toList) (dropWS r1) with
    | none => none
    | some r2 => parseLit cbr (dropWS r2)

/-- `{{\s*block\s*"([^"]+)"\s*\.\s*}}` → (name, rest after open token). -/
def tryBlockOpen (s : List Char) : Option (List Char × List Char) :=
  match parseLit obr s with
  | none => none
  | some r1 =>
    match parseLit (("block").toList) (dropWS r1) with
    | none => none
    | some r2 =>
      match expectCh dq (dropWS r2) with
      | none => none
      | some r3 =>
        let nm := r3.takeWhile (fun x => x ≠ dq)
        if nm = [] then none
        else
          match expectCh dq (r3.drop nm.length) with
          | none => none
          | some r4 =>
            match expectCh '.' (dropWS r4) with
            | none => none
            | some r5 =>
              match parseLit cbr (dropWS r5) with
              | none => none
              | some r6 => some (nm, r6)

/-- One block-construct match
(`(?s){{\s*block\s*"([^"]+)"\s*\.\s*}}(.*?){{\s*end\s*}}`): replaced by
the captured section body when one exists, else by the default body
(stripping the markers). -/
def tryBlock (defines : List (List Char × List Char)) (s : List Char) :
    Option (List Char × List Char) :=
  match tryBlockOpen s with
  | none => none
  | some (nm, r) =>
    match findA tryEndTok r with
    | none => none
    | some (deflt, rest) =>
      match lookupDef defines nm with
      | some body => some (body, rest)
      | none => some (deflt, rest)

/-- `blockRe.MatchString`. -/
def tryBlockFull (s : List Char) : Option Unit :=
  match tryBlockOpen s with
  | none => none
  | some (_, r) => (findA tryEndTok r).map (fun _ => ())

def hasBlockMatch (s : List Char) : Bool := (findA tryBlockFull s).isSome

/-- The iterated block-substitution loop: replace all matches, stop when
no match remains or a pass leaves the text unchanged.  A pass can grow
the text (a body can contain further blocks), so the Go loop can spin
forever: fueled, `none` on exhaustion. -/
def blockLoop (defines : List (List Char × List Char)) : Nat → List Char → Option (List Char)
  | 0, _ => none
  | fuel + 1, s =>
    if hasBlockMatch s then
      let s2 := scanA (tryBlock defines) s
      if s2 = s then some s else blockLoop defines fuel s2
    else some s

/-- The final prepend step (lines 845–863): every captured define whose
`{{define "name"}}` or `{{block "name"` literal is absent from the
composed text is re-emitted, concatenated before it.  Go iterates its
map in unspecified order; the model iterates in insertion order. -/
def prependDefines (defines : List (List Char × List Char)) (s : List Char) : List Char :=
  if defines = [] then s
  else
    let defs := defines.foldl
      (fun acc kv =>
        if containsSub (defineTok kv.1) s ||
            containsSub (obr ++ ("block ").toList ++ dq :: kv.1 ++ [dq]) s then acc
        else acc ++ defineTok kv.1 ++ kv.2 ++ endTok) []
    defs ++ s

/-- The body of `combineWithLayout` after the layout has been compiled:
extract the child's defines, inline the `"content"` placeholder, inline
any other placeholder, run the block loop, append the leftover child
text (or, when empty, the whole original child content), and prepend
unconsumed defines. -/
def combineCore (fuel : Nat) (compiledLayout content : List Char) : Option (List Char) :=
  match extractDefines content with
  | none => none
  | some (defines, contentNoDefines) =>
    let l1 := scanA (tryTmplContent defines) compiledLayout
    let l2 := scanA (tryTmplAny defines) l1
    match blockLoop defines fuel l2 with
    | none => none
    | some l3 =>
      let l4 := if contentNoDefines ≠ [] then l3 ++ contentNoDefines else l3 ++ content
      some (prependDefines defines l4)

/-- `Compiler.combineWithLayout`: read the layout (missing → error),
compile it through `CompileString` (the `recStr` argument), then
compose. -/
def combineWithLayout (recStr : List Char → List Char → Option (Except Err (List Char)))
    (dir : List Char) (fs : List (List Char × List Char)) (fuel : Nat)
    (content layoutName : List Char) : Option (Except Err (List Char)) :=
  match fsRead fs (joinPath dir layoutName) with
  | none => some (.error (.layoutNotFound layoutName))
  | some layoutText =>
    match recStr layoutText (joinPath dir layoutName) with
    | none => none
    | some (.error _) => some (.error (.layoutCompileFailed layoutName))
    | some (.ok compiledLayout) =>
      match combineCore fuel compiledLayout content with
      | none => none
      | some out => some (.ok out)

/-! ## `validateTemplateSyntax` and `CompileString` / `Compile` -/

/-- `Compiler.validateTemplateSyntax`.  The host `template.Parse` check
is abstracted by the `hostOk` predicate (the host templating runtime is
outside the modelled core); then the bracket-count check and the
open/close directive-count check, in source order. -/
def validateTemplateSyntax (hostOk : List Char → Bool) (content : List Char) : Option Err :=
  if ¬ hostOk content then some .hostSyntax
  else if countOcc obr content ≠ countOcc cbr content then some .unbalancedBrackets
  else
    let totalStart := countOcc (obr ++ ("if").toList) content +
      countOcc (obr ++ ("range").toList) content +
      countOcc (obr ++ ("define").toList) content +
      countOcc (obr ++ ("with").toList) content +
      countOcc (obr ++ ("block").toList) content
    if totalStart ≠ countOcc endTok content then some .unbalancedDirectives else none

/-- `Compiler.CompileString` in `"blade"` mode with the recursive
compilations abstracted: extract extends, run the directive passes,
combine with the layout when one was named, validate. -/
def compileStrAux (hostOk : List Char → Bool)
    (recFile : List Char → Option (Except Err (List Char)))
    (recStr : List Char → List Char → Option (Except Err (List Char)))
    (dir : List Char) (fs : List (List Char × List Char)) (blockFuel : Nat)
    (content path : List Char) : Option (Except Err (List Char)) :=
  let p := processExtends content
  match processAllDirectives recFile dir fs p.1 path with
  | none => none
  | some (.error e) => some (.error e)
  | some (.ok c2) =>
    match (if p.2 ≠ [] then combineWithLayout recStr dir fs blockFuel c2 p.2
      else some (.ok c2)) with
    | none => none
    | some (.error e) => some (.error e)
    | some (.ok c3) =>
      match validateTemplateSyntax hostOk c3 with
      | some e => some (.error e)
      | none => some (.ok c3)

/-- `CompileString` with the recursion tied through a fuel bound: an
`@include` re-enters `Compile` (cold read + `CompileString`), and the
layout of an `@extends` re-enters `CompileString`; `none` means the
(unbounded) Go recursion or one of its internal loops does not
terminate within the fuel. -/
def compileStr (hostOk : List Char → Bool) (dir : List Char)
    (fs : List (List Char × List Char)) : Nat → List Char → List Char →
    Option (Except Err (List Char))
  | 0, _, _ => none
  | n + 1, content, path =>
    compileStrAux hostOk
      (fun p =>
        match fsRead fs p with
        | none => some (.error (.readFailed p))
        | some c => compileStr hostOk dir fs n c p)
      (fun c q => compileStr hostOk dir fs n c q)
      dir fs n content path

/-- `Compiler.Compile` in `"blade"` mode on a cold cache (no compiled
cache file exists, so the freshness branch never fires; the write of
the compiled file does not affect the returned text). -/
def compileFile (hostOk : List Char → Bool) (dir : List Char)
    (fs : List (List Char × List Char)) : Nat → List Char →
    Option (Except Err (List Char))
  | 0, _ => none
  | n + 1, path =>
    match fsRead fs path with
    | none => some (.error (.readFailed path))
    | some c => compileStr hostOk dir fs n c path

/-! ## The `CacheManager` of `engine/blade.go`

Times are `Int` nanoseconds (`time.Duration`); every operation receives
the current time explicitly (`time.Now()` of the source).  The item map
is an association list with unique keys maintained by replace-or-append
assignment.  `disk` models the set of compiled cache files under the
cache directory, identified by the key they were derived from. -/

structure CacheItem where
  createdAt : Int
  lastUsedAt : Int
  size : Int
deriving DecidableEq, Repr

structure CacheState where
  items : List (List Char × CacheItem)
  currentSize : Int
  maxSize : Int
  ttl : Int
  disk : List (List Char)
deriving DecidableEq, Repr

/-- `NewCacheManager` (sizes MB → bytes, TTL minutes → nanoseconds). -/
def newCacheManager (maxSizeMB ttlMinutes : Int) : CacheState :=
  { items := [], currentSize := 0, maxSize := maxSizeMB * 1024 * 1024,
    ttl := ttlMinutes * 60 * 1000000000, disk := [] }

def cacheFind (items : List (List Char × CacheItem)) (key : List Char) : Option CacheItem :=
  (items.find? (fun kv => kv.1 == key)).map (fun kv => kv.2)

/-- `CacheManager.Get`: on a hit the item's `LastUsedAt` is refreshed. -/
def cacheGet (st : CacheState) (key : List Char) (now : Int) : CacheState × Bool :=
  match cacheFind st.items key with
  | some _ =>
    ({ st with items := st.items.map (fun kv =>
        if kv.1 == key then (kv.1, { kv.2 with lastUsedAt := now }) else kv) }, true)
  | none => (st, false)

/-- The eviction condition of `evictOldItems`: TTL-expired by creation
time, or unused for more than twice the TTL. -/
def expiredOrStale (ttl now : Int) (it : CacheItem) : Bool :=
  decide (now - it.createdAt > ttl) || decide (now - it.lastUsedAt > ttl * 2)

/-- `CacheManager.evictOldItems`. -/
def evictOldItems (st : CacheState) (now : Int) : CacheState :=
  let removed := st.items.filter (fun kv => expiredOrStale st.ttl now kv.2)
  { st with
    items := st.items.filter (fun kv => !expiredOrStale st.ttl now kv.2),
    currentSize := st.currentSize - (removed.map (fun kv => kv.2.size)).sum }

/-- Go map assignment on the item list. -/
def insertItem (items : List (List Char × CacheItem)) (key : List Char) (it : CacheItem) :
    List (List Char × CacheItem) :=
  match items.find? (fun kv => kv.1 == key) with
  | some _ => items.map (fun kv => if kv.1 == key then (key, it) else kv)
  | none => items ++ [(key, it)]

/-- `os.WriteFile` of the compiled cache file (overwrite keeps one entry). -/
def insertDisk (disk : List (List Char)) (key : List Char) : List (List Char) :=
  if disk.contains key then disk else disk ++ [key]

/-- `CacheManager.Set`: evict when the insert would exceed the budget,
re-check, reject while keeping the evicted state, else insert and write
the disk artifact; `false` is the `"cache is full"` error. -/
def cacheSet (st : CacheState) (key : List Char) (size now : Int) : CacheState × Bool :=
  let st1 := if st.currentSize + size > st.maxSize then evictOldItems st now else st
  if st1.currentSize + size > st1.maxSize then (st1, false)
  else
    ({ st1 with
        items := insertItem st1.items key { createdAt := now, lastUsedAt := now, size := size },
        currentSize := st1.currentSize + size,
        disk := insertDisk st1.disk key }, true)

/-- `CacheManager.Remove`: drop the entry and its disk artifact. -/
def cacheRemove (st : CacheState) (key : List Char) : CacheState :=
  match cacheFind st.items key with
  | some it =>
    { st with
      items := st.items.filter (fun kv => !(kv.1 == key)),
      currentSize := st.currentSize - it.size,
      disk := st.disk.filter (fun k => !(k == key)) }
  | none => st

/-- `CacheManager.Clear`: empty the map, zero the size, delete every
file in the cache directory. -/
def cacheClear (st : CacheState) : CacheState :=
  { st with items := [], currentSize := 0, disk := [] }

/-- `CacheManager.cleanupExpiredItems` (the periodic sweep: creation-TTL
only). -/
def cacheCleanup (st : CacheState) (now : Int) : CacheState :=
  let removed := st.items.filter (fun kv => decide (now - kv.2.createdAt > st.ttl))
  { st with
    items := st.items.filter (fun kv => !decide (now - kv.2.createdAt > st.ttl)),
    currentSize := st.currentSize - (removed.map (fun kv => kv.2.size)).sum }

/-- One cache operation (with its observation time). -/
inductive CacheOp where
  | set (key : List Char) (size now : Int)
  | get (key : List Char) (now : Int)
  | remove (key : List Char)
  | clear
  | cleanup (now : Int)

def execOp (st : CacheState) : CacheOp → CacheState
  | .set k sz now => (cacheSet st k sz now).1
  | .get k now => (cacheGet st k now).1
  | .remove k => cacheRemove st k
  | .clear => cacheClear st
  | .cleanup now => cacheCleanup st now

def execOps (st : CacheState) (ops : List CacheOp) : CacheState := ops.foldl execOp st

/-- A `Set` size is a byte count (non-negative). -/
def opSizeOk : CacheOp → Prop
  | .set _ sz _ => 0 ≤ sz
  | _ => True

instance (op : CacheOp) : Decidable (opSizeOk op) := by
  cases op <;> simp only [opSizeOk] <;> infer_instance

/-- Sizes passed to `Set` are byte counts (non-negative). -/
def OpSizesNonneg (ops : List CacheOp) : Prop :=
  ∀ op ∈ ops, opSizeOk op

/-- The state invariant threaded through every operation. -/
def CacheInv (st : CacheState) : Prop :=
  0 ≤ st.maxSize ∧ st.currentSize ≤ st.maxSize ∧ ∀ kv ∈ st.items, 0 ≤ kv.2.size

theorem sum_sizes_nonneg (l : List (List Char × CacheItem))
    (h : ∀ kv ∈ l, 0 ≤ kv.2.size) : 0 ≤ (l.map (fun kv => kv.2.size)).sum := by
  apply List.sum_nonneg
  intro x hx
  obtain ⟨kv, hkv, rfl⟩ := List.mem_map.mp hx
  exact h kv hkv

theorem evict_inv (st : CacheState) (now : Int) (h : CacheInv st) :
    CacheInv (evictOldItems st now) ∧
      (evictOldItems st now).currentSize ≤ st.currentSize ∧
      (evictOldItems st now).maxSize = st.maxSize := by
  obtain ⟨h1, h2, h3⟩ := h
  have hrem : 0 ≤ ((st.items.filter (fun kv => expiredOrStale st.ttl now kv.2)).map
      (fun kv => kv.2.size)).sum :=
    sum_sizes_nonneg _ (fun kv hkv => h3 kv (List.mem_of_mem_filter hkv))
  refine ⟨⟨h1, by simp only [evictOldItems]; omega, ?_⟩, by simp only [evictOldItems]; omega, rfl⟩
  intro kv hkv
  exact h3 kv (List.mem_of_mem_filter hkv)

theorem cleanup_inv (st : CacheState) (now : Int) (h : CacheInv st) :
    CacheInv (cacheCleanup st now) := by
  obtain ⟨h1, h2, h3⟩ := h
  have hrem : 0 ≤ ((st.items.filter (fun kv => decide (now - kv.2.createdAt > st.ttl))).map
      (fun kv => kv.2.size)).sum :=
    sum_sizes_nonneg _ (fun kv hkv => h3 kv (List.mem_of_mem_filter hkv))
  refine ⟨h1, by simp only [cacheCleanup]; omega, ?_⟩
  intro kv hkv
  exact h3 kv (List.mem_of_mem_filter hkv)

theorem insertItem_sizes (items : List (List Char × CacheItem)) (key : List Char)
    (it : CacheItem) (h : ∀ kv ∈ items, 0 ≤ kv.2.size) (hit : 0 ≤ it.size) :
    ∀ kv ∈ insertItem items key it, 0 ≤ kv.2.size := by
  intro kv hkv
  simp only [insertItem] at hkv
  cases hf : items.find? (fun kv => kv.1 == key) with
  | some _ =>
    rw [hf] at hkv
    obtain ⟨kv0, hkv0, heq⟩ := List.mem_map.mp hkv
    by_cases hk : (kv0.1 == key) = true
    · simp only [hk, if_true] at heq
      rw [← heq]
      exact hit
    · simp only [hk, if_false, Bool.false_eq_true] at heq
      rw [← heq]
      exact h kv0 hkv0
  | none =>
    rw [hf] at hkv
    rcases List.mem_append.mp hkv with hm | hm
    · exact h kv hm
    · simp only [List.mem_singleton] at hm
      rw [hm]
      exact hit

theorem set_inv (st : CacheState) (key : List Char) (size now : Int)
    (h : CacheInv st) (hsz : 0 ≤ size) : CacheInv (cacheSet st key size now).1 := by
  have hinv1 : CacheInv (if st.currentSize + size > st.maxSize then evictOldItems st now else st) := by
    split
    · exact (evict_inv st now h).1
    · exact h
  simp only [cacheSet]
  set st1 := if st.currentSize + size > st.maxSize then evictOldItems st now else st with hst1
  obtain ⟨h1, h2, h3⟩ := hinv1
  by_cases hfull : st1.currentSize + size > st1.maxSize
  · simp only [hfull, if_true]
    exact ⟨h1, h2, h3⟩
  · simp only [hfull, if_false]
    refine ⟨h1, ?_, ?_⟩
    · show st1.currentSize + size ≤ st1.maxSize
      omega
    · intro kv hkv
      exact insertItem_sizes st1.items key _ h3 hsz kv hkv

theorem get_inv (st : CacheState) (key : List Char) (now : Int) (h : CacheInv st) :
    CacheInv (cacheGet st key now).1 := by
  obtain ⟨h1, h2, h3⟩ := h
  cases hf : cacheFind st.items key with
  | some it =>
    simp only [cacheGet, hf]
    refine ⟨h1, h2, ?_⟩
    intro kv hkv
    obtain ⟨kv0, hkv0, heq⟩ := List.mem_map.mp hkv
    by_cases hk : (kv0.1 == key) = true
    · simp only [hk, if_true] at heq
      rw [← heq]
      exact h3 kv0 hkv0
    · simp only [hk, if_false, Bool.false_eq_true] at heq
      rw [← heq]
      exact h3 kv0 hkv0
  | none =>
    simp only [cacheGet, hf]
    exact ⟨h1, h2, h3⟩

theorem remove_inv (st : CacheState) (key : List Char) (h : CacheInv st) :
    CacheInv (cacheRemove st key) := by
  obtain ⟨h1, h2, h3⟩ := h
  cases hf : cacheFind st.items key with
  | some it =>
    have hit : 0 ≤ it.size := by
      simp only [cacheFind] at hf
      cases hf2 : st.items.find? (fun kv => kv.1 == key) with
      | none => rw [hf2] at hf; simp at hf
      | some kv =>
        rw [hf2] at hf
        simp only [Option.map_some', Option.some.injEq] at hf
        rw [← hf]
        exact h3 kv (List.mem_of_find?_eq_some hf2)
    simp only [cacheRemove, hf]
    refine ⟨h1, ?_, ?_⟩
    · show st.currentSize - it.size ≤ st.maxSize
      omega
    · intro kv hkv
      exact h3 kv (List.mem_of_mem_filter hkv)
  | none =>
    simp only [cacheRemove, hf]
    exact ⟨h1, h2, h3⟩

theorem clear_inv (st : CacheState) (h : CacheInv st) : CacheInv (cacheClear st) := by
  obtain ⟨h1, _, _⟩ := h
  exact ⟨h1, by simpa [cacheClear] using h1, by simp [cacheClear]⟩

theorem execOp_inv (st : CacheState) (op : CacheOp) (h : CacheInv st)
    (hsz : opSizeOk op) : CacheInv (execOp st op) := by
  cases op with
  | set k sz now => exact set_inv st k sz now h hsz
  | get k now => exact get_inv st k now h
  | remove k => exact remove_inv st k h
  | clear => exact clear_inv st h
  | cleanup now => exact cleanup_inv st now h

theorem execOps_inv (ops : List CacheOp) (st : CacheState) (h : CacheInv st)
    (hsz : OpSizesNonneg ops) : CacheInv (execOps st ops) := by
  induction ops generalizing st with
  | nil => exact h
  | cons op ops ih =>
    exact ih (execOp st op)
      (execOp_inv st op h (hsz op (List.mem_cons_self op ops)))
      (fun o ho => hsz o (List.mem_cons_of_mem op ho))

theorem execOps_maxSize (ops : List CacheOp) (st : CacheState) :
    (execOps st ops).maxSize = st.maxSize ∧ (execOps st ops).ttl = st.ttl := by
  induction ops generalizing st with
  | nil => exact ⟨rfl, rfl⟩
  | cons op ops ih =>
    have hstep : (execOp st op).maxSize = st.maxSize ∧ (execOp st op).ttl = st.ttl := by
      cases op with
      | set k sz now =>
        simp only [execOp, cacheSet]
        by_cases hA : st.currentSize + sz > st.maxSize
        · simp only [hA, if_true]
          refine ⟨?_, ?_⟩ <;> (split <;> rfl)
        · simp only [hA, if_false]
          exact ⟨trivial, trivial⟩
      | get k now =>
        cases hf : cacheFind st.items k <;> simp only [execOp, cacheGet, hf] <;> trivial
      | remove k =>
        cases hf : cacheFind st.items k <;> simp only [execOp, cacheRemove, hf] <;> trivial
      | clear => exact ⟨rfl, rfl⟩
      | cleanup now => exact ⟨rfl, rfl⟩
    obtain ⟨ih1, ih2⟩ := ih (execOp st op)
    exact ⟨hstep.1 ▸ ih1, hstep.2 ▸ ih2⟩

/-- Inversion of the `Set` error: the cache-full error can only be
returned after the eviction pass ran and still left the insert over
budget, and the returned state is exactly the post-eviction state
(nothing inserted). -/
theorem cacheSet_full (st : CacheState) (key : List Char) (size now : Int)
    (h : (cacheSet st key size now).2 = false) :
    (cacheSet st key size now).1 = evictOldItems st now ∧
      st.currentSize + size > st.maxSize ∧
      (evictOldItems st now).currentSize + size > (evictOldItems st now).maxSize := by
  by_cases hA : st.currentSize + size > st.maxSize
  · by_cases hB : (evictOldItems st now).currentSize + size > (evictOldItems st now).maxSize
    · refine ⟨?_, hA, hB⟩
      simp only [cacheSet, hA, if_true, hB]
    · simp only [cacheSet, hA, if_true, hB, if_false] at h
      simp at h
  · simp only [cacheSet, hA, if_false] at h
    simp at h

/-- **C4.** For every sequence of cache operations starting from
`NewCacheManager` (with a non-negative configured maximum and byte-count
sizes), the tracked `currentSize` never exceeds the configured maximum;
and whenever `Set` answers with the cache-full error, the state it
leaves behind is exactly the state after the eviction pass (entries that
were TTL-expired or unused for more than twice the TTL removed), with
nothing inserted. -/
theorem claim_C4_cache_size_invariant (msMB ttlm : Int) (hms : 0 ≤ msMB)
    (ops : List CacheOp) (hsz : OpSizesNonneg ops)
    (st : CacheState) (key : List Char) (size now : Int)
    (hfull : (cacheSet st key size now).2 = false) :
    (execOps (newCacheManager msMB ttlm) ops).currentSize ≤ msMB * 1024 * 1024 ∧
      (cacheSet st key size now).1 = evictOldItems st now := by
  constructor
  · have hinv0 : CacheInv (newCacheManager msMB ttlm) := by
      refine ⟨?_, ?_, ?_⟩
      · show (0 : Int) ≤ msMB * 1024 * 1024
        have : (0 : Int) ≤ msMB * 1024 := by
          have h1024 : (0 : Int) ≤ 1024 := by norm_num
          exact mul_nonneg hms h1024
        have h1024 : (0 : Int) ≤ 1024 := by norm_num
        exact mul_nonneg this h1024
      · show (0 : Int) ≤ msMB * 1024 * 1024
        have : (0 : Int) ≤ msMB * 1024 := mul_nonneg hms (by norm_num)
        exact mul_nonneg this (by norm_num)
      · intro kv hkv
        simp [newCacheManager] at hkv
    have hfin := execOps_inv ops (newCacheManager msMB ttlm) hinv0 hsz
    have hmax := (execOps_maxSize ops (newCacheManager msMB ttlm)).1
    have h2 := hfin.2.1
    rw [hmax] at h2
    exact h2
  · exact (cacheSet_full st key size now hfull).1

/-- Concrete operation sequence for the C4 witness. -/
def opsW : List CacheOp :=
  [CacheOp.set (("a").toList) 600000 0, CacheOp.set (("b").toList) 600000 1]

/-- Concrete state for the C10 scenario: one entry under `k`, created at
time 0 and TTL-expired by time 100. -/
def c10st : CacheState :=
  { items := [((("k").toList), { createdAt := 0, lastUsedAt := 0, size := 10 })],
    currentSize := 10, maxSize := 100, ttl := 10, disk := [("k").toList] }

/-- **C4 (witness).** The invariant theorem at a concrete run: a 1 MB
cache holds the first 600000-byte insert, rejects the second
(eviction removes nothing at time 1), and the tracked size stays within
bounds; and a concrete full-`Set` leaves exactly the evicted state. -/
theorem claim_C4_cache_size_invariant_witness :
    (execOps (newCacheManager 1 1) opsW).currentSize ≤ 1 * 1024 * 1024 ∧
      (cacheSet c10st (("k").toList) 1000 100).1 = evictOldItems c10st 100 :=
  claim_C4_cache_size_invariant 1 1 (by norm_num) opsW
    (by unfold OpSizesNonneg; decide)
    c10st (("k").toList) 1000 100 (by decide)

/-- **C10 (counterexample).** The claim says a failing `Set` leaves a
pre-existing entry under the key unchanged.  Concretely: the entry under
`k` exists before the call, `Set k` fails with the cache-full error, and
afterwards the entry under `k` is gone — the eviction pass removed it
because it was TTL-expired. -/
theorem claim_C10_counterexample :
    cacheFind c10st.items (("k").toList) =
        some { createdAt := 0, lastUsedAt := 0, size := 10 } ∧
      (cacheSet c10st (("k").toList) 1000 100).2 = false ∧
      cacheFind (cacheSet c10st (("k").toList) 1000 100).1.items (("k").toList) = none := by
  decide

/-- **C10 (amended).** Whenever `Set` returns the cache-full error, no
entry is inserted and the resulting state is exactly the post-eviction
state: the disk artifacts are untouched (no compiled file is written for
the key), the size changed only by the eviction of expired/stale
entries, and a pre-existing entry under the key survives unchanged
provided it was not itself expired or stale. -/
theorem claim_C10_set_error_no_insert (st : CacheState) (key : List Char) (size now : Int)
    (h : (cacheSet st key size now).2 = false) :
    (cacheSet st key size now).1 = evictOldItems st now ∧
      (cacheSet st key size now).1.disk = st.disk ∧
      ∀ kv ∈ st.items, expiredOrStale st.ttl now kv.2 = false →
        kv ∈ (cacheSet st key size now).1.items := by
  have h1 := (cacheSet_full st key size now h).1
  refine ⟨h1, ?_, ?_⟩
  · rw [h1]
    rfl
  · intro kv hkv hcond
    rw [h1]
    show kv ∈ (evictOldItems st now).items
    simp only [evictOldItems]
    exact List.mem_filter.mpr ⟨hkv, by simp [hcond]⟩

/-- **C10 (witness).** The amended statement at the concrete scenario. -/
theorem claim_C10_set_error_no_insert_witness :
    (cacheSet c10st (("k").toList) 1000 100).1 = evictOldItems c10st 100 ∧
      (cacheSet c10st (("k").toList) 1000 100).1.disk = c10st.disk ∧
      ∀ kv ∈ c10st.items, expiredOrStale c10st.ttl 100 kv.2 = false →
        kv ∈ (cacheSet c10st (("k").toList) 1000 100).1.items :=
  claim_C10_set_error_no_insert c10st (("k").toList) 1000 100 (by decide)

/-! ## Lemmas for scanning schematic template text -/

theorem leadsWith_self (pat rest : List Char) : leadsWith pat (pat ++ rest) = true := by
  induction pat with
  | nil => rfl
  | cons p ps ih => simp [leadsWith, ih]

theorem parseLit_self (pat rest : List Char) : parseLit pat (pat ++ rest) = some rest := by
  simp [parseLit, leadsWith_self, List.drop_left]

theorem leadsWith_head {p c : Char} {ps tl : List Char}
    (h : leadsWith (p :: ps) (c :: tl) = true) : c = p := by
  simp only [leadsWith, Bool.and_eq_true, decide_eq_true_eq] at h
  exact h.1.symm

theorem takeWhile_append_stop (p : Char → Bool) (N : List Char) (x : Char) (t : List Char)
    (hN : ∀ c ∈ N, p c = true) (hx : p x = false) :
    (N ++ x :: t).takeWhile p = N := by
  induction N with
  | nil => simp [List.takeWhile, hx]
  | cons a N ih =>
    have ha : p a = true := hN a (List.mem_cons_self a N)
    simp only [List.cons_append, List.takeWhile_cons, ha, if_true]
    rw [ih (fun c hc => hN c (List.mem_cons_of_mem a hc))]

theorem dropWS_cons {c : Char} (t : List Char) (h : isWS c = false) :
    dropWS (c :: t) = c :: t := by
  simp [dropWS, List.dropWhile_cons, h]

theorem expectCh_self (c : Char) (t : List Char) : expectCh c (c :: t) = some t := by
  simp [expectCh]

/-- A scanner whose match attempt requires a leading literal never fires
on a string with no occurrence of that literal. -/
theorem containsSub_cons (pat : List Char) (c : Char) (tl : List Char)
    (h : containsSub pat (c :: tl) = false) :
    leadsWith pat (c :: tl) = false ∧ containsSub pat tl = false := by
  simp only [containsSub, findSub] at h
  by_cases hl : leadsWith pat (c :: tl) = true
  · simp [hl] at h
  · refine ⟨by simpa using hl, ?_⟩
    simp only [hl, if_false, Bool.false_eq_true] at h
    simp only [containsSub]
    cases hfs : findSub pat tl with
    | none => rfl
    | some p => rw [hfs] at h; simp at h

theorem scanA_id_of_no_lit (pat : List Char)
    (try1 : List Char → Option (List Char × List Char))
    (hneed : ∀ s a, try1 s = some a → leadsWith pat s = true) :
    ∀ s, containsSub pat s = false → scanA try1 s = s := by
  intro s
  induction s with
  | nil => intro _; rfl
  | cons c tl ih =>
    intro h
    obtain ⟨h1, h2⟩ := containsSub_cons pat c tl h
    have hnone : try1 (c :: tl) = none := by
      cases ht : try1 (c :: tl) with
      | none => rfl
      | some a => rw [hneed (c :: tl) a ht] at h1; cases h1
    rw [scanA_cons_none try1 c tl hnone, ih h2]

theorem findA_none_of_no_lit {α : Type} (pat : List Char)
    (try1 : List Char → Option α)
    (hneed : ∀ s a, try1 s = some a → leadsWith pat s = true) :
    ∀ s, containsSub pat s = false → findA try1 s = none := by
  intro s
  induction s with
  | nil => intro _; rfl
  | cons c tl ih =>
    intro h
    obtain ⟨h1, h2⟩ := containsSub_cons pat c tl h
    have hnone : try1 (c :: tl) = none := by
      cases ht : try1 (c :: tl) with
      | none => rfl
      | some a => rw [hneed (c :: tl) a ht] at h1; cases h1
    rw [findA_cons_none try1 c tl hnone, ih h2]
    rfl

/-! ## C9: `processExtends` -/

/-- The canonical `@extends('name')` source form. -/
def extendsDirective (n : List Char) : List Char :=
  atExtends ++ '(' :: sq :: n ++ sq :: [')']

theorem tryExtends_trig : TryTrig tryExtends '@' := by
  intro c tl a h
  simp only [tryExtends] at h
  cases h1 : parseLit atExtends (c :: tl) with
  | none => simp only [h1] at h; exact Option.noConfusion h
  | some r1 =>
    simp only [parseLit] at h1
    by_cases hl : leadsWith atExtends (c :: tl) = true
    · exact leadsWith_head hl
    · simp [hl] at h1

theorem tryExtends_lt : ∀ s nm r, tryExtends s = some (nm, r) → r.length < s.length := by
  intro s nm r h
  simp only [tryExtends] at h
  cases h1 : parseLit atExtends s with
  | none => simp only [h1] at h; exact Option.noConfusion h
  | some r1 =>
    simp only [h1] at h
    cases h2 : expectCh '(' (dropWS r1) with
    | none => simp only [h2] at h; exact Option.noConfusion h
    | some r2 =>
      simp only [h2] at h
      cases h3 : expectCh sq (dropWS r2) with
      | none => simp only [h3] at h; exact Option.noConfusion h
      | some r3 =>
        simp only [h3] at h
        by_cases hnm : r3.takeWhile (fun x => x ≠ sq) = []
        · rw [if_pos hnm] at h; exact Option.noConfusion h
        · rw [if_neg hnm] at h
          cases h4 : expectCh sq (r3.drop (r3.takeWhile (fun x => x ≠ sq)).length) with
          | none => simp only [h4] at h; exact Option.noConfusion h
          | some r4 =>
            simp only [h4] at h
            cases h5 : expectCh ')' (dropWS r4) with
            | none => simp only [h5] at h; exact Option.noConfusion h
            | some r5 =>
              simp only [h5, Option.some.injEq, Prod.mk.injEq] at h
              obtain ⟨_, hr⟩ := h
              subst hr
              have l1 := parseLit_length_lt atExtends s r1 (by decide) h1
              have l2 := expectCh_length_lt '(' (dropWS r1) r2 h2
              have l2b := dropWS_length_le r1
              have l3 := expectCh_length_lt sq (dropWS r2) r3 h3
              have l3b := dropWS_length_le r2
              have l4 := expectCh_length_lt sq (r3.drop (r3.takeWhile (fun x => x ≠ sq)).length) r4 h4
              have l4b : (r3.drop (r3.takeWhile (fun x => x ≠ sq)).length).length ≤ r3.length := by
                rw [List.length_drop]; omega
              have l5 := expectCh_length_lt ')' (dropWS r4) r5 h5
              have l5b := dropWS_length_le r4
              omega

theorem tryExtendsRepl_dec : TryDec tryExtendsRepl := by
  intro s r rest h
  simp only [tryExtendsRepl] at h
  cases h1 : tryExtends s with
  | none => simp only [h1] at h; exact Option.noConfusion h
  | some p =>
    simp only [h1, Option.map_some', Option.some.injEq, Prod.mk.injEq] at h
    obtain ⟨_, hr⟩ := h
    subst hr
    exact tryExtends_lt s p.1 p.2 h1

theorem tryExtendsRepl_trig : TryTrig tryExtendsRepl '@' := by
  intro c tl a h
  simp only [tryExtendsRepl] at h
  cases h1 : tryExtends (c :: tl) with
  | none => simp only [h1] at h; exact Option.noConfusion h
  | some p => exact tryExtends_trig c tl p h1

theorem tryExtends_at (N s : List Char) (hne : N ≠ []) (hq : ∀ c ∈ N, c ≠ sq) :
    tryExtends (extendsDirective N ++ s) = some (N, s) := by
  have hshape : extendsDirective N ++ s = atExtends ++ '(' :: sq :: (N ++ sq :: ')' :: s) := by
    simp [extendsDirective]
  have htake : (N ++ sq :: ')' :: s).takeWhile (fun x => x ≠ sq) = N :=
    takeWhile_append_stop _ N sq (')' :: s) (fun c hc => by simpa using hq c hc) (by simp)
  have hdw1 : isWS '(' = false := by decide
  have hdw2 : isWS sq = false := by decide
  have hdw3 : isWS ')' = false := by decide
  rw [hshape]
  simp only [tryExtends, parseLit_self, dropWS_cons _ hdw1, expectCh_self,
    dropWS_cons _ hdw2, htake, if_neg hne, List.drop_left, dropWS_cons _ hdw3]

theorem tryExtendsRepl_at (N s : List Char) (hne : N ≠ []) (hq : ∀ c ∈ N, c ≠ sq) :
    tryExtendsRepl (extendsDirective N ++ s) = some ([], s) := by
  simp [tryExtendsRepl, tryExtends_at N s hne hq]

theorem tryExtends_needs_lit : ∀ s a, tryExtends s = some a → leadsWith atExtends s = true := by
  intro s a h
  simp only [tryExtends] at h
  cases h1 : parseLit atExtends s with
  | none => simp only [h1] at h; exact Option.noConfusion h
  | some r1 =>
    simp only [parseLit] at h1
    by_cases hl : leadsWith atExtends s = true
    · exact hl
    · simp [hl] at h1

theorem findA_tryExtends_at (N s : List Char) (hne : N ≠ []) (hq : ∀ c ∈ N, c ≠ sq) :
    findA tryExtends (extendsDirective N ++ s) = some ([], N, s) := by
  have h := tryExtends_at N s hne hq
  cases hd : extendsDirective N with
  | nil => simp [extendsDirective, atExtends] at hd
  | cons c tl =>
    rw [hd] at h
    rw [show (c :: tl) ++ s = c :: (tl ++ s) from rfl] at h ⊢
    exact findA_cons_some tryExtends c (tl ++ s) (N, s) h

theorem scanA_tryExtendsRepl_at (N s : List Char) (hne : N ≠ []) (hq : ∀ c ∈ N, c ≠ sq) :
    scanA tryExtendsRepl (extendsDirective N ++ s) = scanA tryExtendsRepl s := by
  have h := tryExtendsRepl_at N s hne hq
  cases hd : extendsDirective N with
  | nil => simp [extendsDirective, atExtends] at hd
  | cons c tl =>
    rw [hd] at h
    rw [show (c :: tl) ++ s = c :: (tl ++ s) from rfl] at h ⊢
    rw [scanA_cons_some tryExtendsRepl tryExtendsRepl_dec c (tl ++ s) [] s h]
    rfl

/-- **C9.** `processExtends` on a text with two `@extends('…')`
occurrences embedded in `@`-free context: the layout name returned is
that of the first occurrence, every occurrence is removed from the
returned body, and the result is whitespace-trimmed; and on any text
with no `@extends` occurrence the content is returned unchanged with an
empty layout name.  The Go function returns a nil error on every path. -/
theorem claim_C9_processExtends (A B C N1 N2 : List Char)
    (hA : ∀ c ∈ A, c ≠ '@') (hB : ∀ c ∈ B, c ≠ '@') (hC : ∀ c ∈ C, c ≠ '@')
    (hN1 : N1 ≠ []) (hN1q : ∀ c ∈ N1, c ≠ sq)
    (hN2 : N2 ≠ []) (hN2q : ∀ c ∈ N2, c ≠ sq) :
    processExtends (A ++ extendsDirective N1 ++ B ++ extendsDirective N2 ++ C) =
        (trimGo (A ++ B ++ C), N1) ∧
      ∀ s, containsSub atExtends s = false → processExtends s = (s, []) := by
  constructor
  · have hfind : findA tryExtends
        (A ++ (extendsDirective N1 ++ (B ++ (extendsDirective N2 ++ C)))) =
        some (A, N1, B ++ (extendsDirective N2 ++ C)) := by
      rw [findA_append_clean tryExtends '@' tryExtends_trig A _ hA]
      rw [findA_tryExtends_at N1 (B ++ (extendsDirective N2 ++ C)) hN1 hN1q]
      simp
    have hstrip : scanA tryExtendsRepl
        (A ++ (extendsDirective N1 ++ (B ++ (extendsDirective N2 ++ C)))) =
        A ++ (B ++ C) := by
      rw [scanA_append_clean tryExtendsRepl '@' tryExtendsRepl_trig A _ hA]
      rw [scanA_tryExtendsRepl_at N1 (B ++ (extendsDirective N2 ++ C)) hN1 hN1q]
      rw [scanA_append_clean tryExtendsRepl '@' tryExtendsRepl_trig B _ hB]
      rw [scanA_tryExtendsRepl_at N2 C hN2 hN2q]
      rw [scanA_clean_id tryExtendsRepl '@' tryExtendsRepl_trig C hC]
    rw [show A ++ extendsDirective N1 ++ B ++ extendsDirective N2 ++ C =
      A ++ (extendsDirective N1 ++ (B ++ (extendsDirective N2 ++ C))) by
        simp [List.append_assoc]]
    simp only [processExtends, hfind, hstrip]
    rw [show A ++ (B ++ C) = A ++ B ++ C by simp [List.append_assoc]]
  · intro s hs
    simp only [processExtends,
      findA_none_of_no_lit atExtends tryExtends tryExtends_needs_lit s hs]

/-- **C9 (witness).** The schematic theorem at a concrete template. -/
theorem claim_C9_processExtends_witness :
    processExtends (("x ").toList ++ extendsDirective (("layouts/app").toList) ++
          (" y ").toList ++ extendsDirective (("layouts/alt").toList) ++ (" z").toList) =
        (trimGo (("x ").toList ++ (" y ").toList ++ (" z").toList), ("layouts/app").toList) ∧
      ∀ s, containsSub atExtends s = false → processExtends s = (s, []) :=
  claim_C9_processExtends (("x ").toList) ((" y ").toList) ((" z").toList)
    (("layouts/app").toList) (("layouts/alt").toList)
    (by decide) (by decide) (by decide) (by decide) (by decide) (by decide) (by decide)

/-! ## C5: the define-extraction balancing scan -/

theorem findSub_self (pat rest : List Char) (hp : pat ≠ []) :
    findSub pat (pat ++ rest) = some ([], rest) := by
  cases pat with
  | nil => exact absurd rfl hp
  | cons p ps =>
    show findSub (p :: ps) (p :: (ps ++ rest)) = some ([], rest)
    simp only [findSub]
    rw [show p :: (ps ++ rest) = (p :: ps) ++ rest from rfl, leadsWith_self]
    simp [List.drop_left]

theorem findSub_append_clean (p0 : Char) (ps : List Char) (A s : List Char)
    (hA : ∀ c ∈ A, c ≠ p0) :
    findSub (p0 :: ps) (A ++ s) = (findSub (p0 :: ps) s).map (fun p => (A ++ p.1, p.2)) := by
  induction A with
  | nil =>
    cases h : findSub (p0 :: ps) s <;> simp [h]
  | cons a A ih =>
    have ha : a ≠ p0 := hA a (List.mem_cons_self a A)
    have hl : leadsWith (p0 :: ps) (a :: (A ++ s)) = false := by
      cases h : leadsWith (p0 :: ps) (a :: (A ++ s)) with
      | false => rfl
      | true => exact absurd (leadsWith_head h) ha
    rw [List.cons_append]
    simp only [findSub, hl, if_false, Bool.false_eq_true,
      ih (fun c hc => hA c (List.mem_cons_of_mem a hc))]
    cases findSub (p0 :: ps) s <;> simp

theorem findSub_obr_clean (A s : List Char) (hA : ∀ c ∈ A, c ≠ lb) :
    findSub obr (A ++ s) = (findSub obr s).map (fun p => (A ++ p.1, p.2)) :=
  findSub_append_clean lb [lb] A s hA

theorem findSub_cbr_clean (A s : List Char) (hA : ∀ c ∈ A, c ≠ rb) :
    findSub cbr (A ++ s) = (findSub cbr s).map (fun p => (A ++ p.1, p.2)) :=
  findSub_append_clean rb [rb] A s hA

theorem findSub_none_clean (p0 : Char) (ps : List Char) (s : List Char)
    (hs : ∀ c ∈ s, c ≠ p0) : findSub (p0 :: ps) s = none := by
  induction s with
  | nil => rfl
  | cons a s ih =>
    have ha : a ≠ p0 := hs a (List.mem_cons_self a s)
    have hl : leadsWith (p0 :: ps) (a :: s) = false := by
      cases h : leadsWith (p0 :: ps) (a :: s) with
      | false => rfl
      | true => exact absurd (leadsWith_head h) ha
    simp [findSub, hl, ih (fun c hc => hs c (List.mem_cons_of_mem a hc))]

theorem findDefEnd_consumed (fuel d : Nat) (s pre after seg rest : List Char)
    (h1 : findSub obr s = some (pre, after)) (h2 : findSub cbr after = some (seg, rest)) :
    rest.length + 4 + pre.length + seg.length = s.length := by
  have p1 := findSub_parts obr s pre after h1
  have p2 := findSub_parts cbr after seg rest h2
  subst p1
  rw [p2]
  simp only [List.length_append, obr, cbr, List.length_cons, List.length_nil]
  omega

theorem findDefEnd_fi :
    ∀ f1 f2 d s, s.length ≤ f1 → s.length ≤ f2 → findDefEnd f1 d s = findDefEnd f2 d s := by
  intro f1
  induction f1 with
  | zero =>
    intro f2 d s h1 _
    have hs : s = [] := List.length_eq_zero.mp (Nat.le_zero.mp h1)
    subst hs
    cases f2 with
    | zero => rfl
    | succ g => simp [findDefEnd, findSub, obr]
  | succ f ih =>
    intro f2 d s h1 h2
    cases f2 with
    | zero =>
      have hs : s = [] := List.length_eq_zero.mp (Nat.le_zero.mp h2)
      subst hs
      simp [findDefEnd, findSub, obr]
    | succ g =>
      show findDefEnd (f + 1) d s = findDefEnd (g + 1) d s
      cases hf1 : findSub obr s with
      | none => simp only [findDefEnd, hf1]
      | some p =>
        obtain ⟨pre, after⟩ := p
        cases hf2 : findSub cbr after with
        | none => simp only [findDefEnd, hf1, hf2]
        | some q =>
          obtain ⟨seg, rest⟩ := q
          simp only [findDefEnd, hf1, hf2]
          have hc := findDefEnd_consumed f d s pre after seg rest hf1 hf2
          have hr1 : rest.length ≤ f := by omega
          have hr2 : rest.length ≤ g := by omega
          rw [ih g (d + 1) rest hr1 hr2, ih g (d - 1) rest hr1 hr2, ih g d rest hr1 hr2]

theorem findDefEndA_eq (d : Nat) (s : List Char) :
    findDefEndA d s =
      match findSub obr s with
      | none => none
      | some (pre, after) =>
        match findSub cbr after with
        | none => none
        | some (seg, rest) =>
          let tok := trimGo seg
          if isOpenerTok tok then
            (findDefEndA (d + 1) rest).map (fun p => (pre ++ obr ++ seg ++ cbr ++ p.1, p.2))
          else if tok = ("end").toList then
            if d = 0 then some (pre, rest)
            else (findDefEndA (d - 1) rest).map (fun p => (pre ++ obr ++ seg ++ cbr ++ p.1, p.2))
          else (findDefEnd rest.length d rest).map (fun p => (pre ++ obr ++ seg ++ cbr ++ p.1, p.2)) := by
  show findDefEnd (s.length + 1) d s = _
  cases hf1 : findSub obr s with
  | none => simp only [findDefEnd, hf1]
  | some p =>
    obtain ⟨pre, after⟩ := p
    cases hf2 : findSub cbr after with
    | none => simp only [findDefEnd, hf1, hf2]
    | some q =>
      obtain ⟨seg, rest⟩ := q
      simp only [findDefEnd, hf1, hf2]
      have hc := findDefEnd_consumed s.length d s pre after seg rest hf1 hf2
      rw [findDefEnd_fi s.length (rest.length + 1) (d + 1) rest (by omega) (by omega),
        findDefEnd_fi s.length (rest.length + 1) (d - 1) rest (by omega) (by omega),
        findDefEnd_fi s.length rest.length d rest (by omega) (by omega)]
      rfl

/-- The nesting grammar of a define body, as the balancing scan sees it:
plain text (free of `plain-open braces`), a non-opening non-`end` action
token, an opening construct with its balanced body and `\x7b\x7bend\x7d\x7d`,
and concatenation. -/
inductive Tmpl where
  | text (s : List Char)
  | tok (t : List Char)
  | blockT (op : List Char) (body : Tmpl)
  | seq (a b : Tmpl)

def renderT : Tmpl → List Char
  | .text s => s
  | .tok t => obr ++ t ++ cbr
  | .blockT op body => obr ++ op ++ cbr ++ renderT body ++ endTok
  | .seq a b => renderT a ++ renderT b

/-- Well-formedness for the balancing scan: text pieces contain no `{`,
token and opener contents contain no `}` and classify as the scan
expects. -/
def WFT : Tmpl → Prop
  | .text s => ∀ c ∈ s, c ≠ lb
  | .tok t => (∀ c ∈ t, c ≠ rb) ∧ isOpenerTok (trimGo t) = false ∧ trimGo t ≠ ("end").toList
  | .blockT op body => (∀ c ∈ op, c ≠ rb) ∧ isOpenerTok (trimGo op) = true ∧ WFT body
  | .seq a b => WFT a ∧ WFT b

theorem endTok_step (d : Nat) (s : List Char) :
    findDefEndA (d + 1) (endTok ++ s) =
      (findDefEndA d s).map (fun p => (endTok ++ p.1, p.2)) := by
  have h1 : findSub obr (endTok ++ s) = some ([], ("end").toList ++ cbr ++ s) := by
    rw [show endTok ++ s = obr ++ (("end").toList ++ cbr ++ s) by simp [endTok]]
    exact findSub_self obr _ (by decide)
  have h2 : findSub cbr (("end").toList ++ cbr ++ s) = some (("end").toList, s) := by
    rw [show ("end").toList ++ cbr ++ s = ("end").toList ++ (cbr ++ s) by simp,
      findSub_cbr_clean (("end").toList) (cbr ++ s) (by decide),
      findSub_self cbr s (by decide)]
    simp
  rw [findDefEndA_eq]
  simp only [h1, h2]
  rw [if_neg (by decide : ¬isOpenerTok (trimGo (("end").toList)) = true),
    if_pos (by decide : trimGo (("end").toList) = ("end").toList),
    if_neg (Nat.succ_ne_zero d)]
  show (findDefEndA d s).map _ = _
  cases findDefEndA d s <;> simp [endTok]

theorem findDefEndA_render (t : Tmpl) (hw : WFT t) :
    ∀ d s, findDefEndA d (renderT t ++ s) =
      (findDefEndA d s).map (fun p => (renderT t ++ p.1, p.2)) := by
  induction t with
  | text A =>
    intro d s
    have hA : ∀ c ∈ A, c ≠ lb := hw
    show findDefEndA d (A ++ s) = (findDefEndA d s).map (fun p => (A ++ p.1, p.2))
    rw [findDefEndA_eq d (A ++ s), findDefEndA_eq d s, findSub_obr_clean A s hA]
    cases h1 : findSub obr s with
    | none => rfl
    | some p =>
      obtain ⟨pre, after⟩ := p
      simp only [Option.map_some']
      cases h2 : findSub cbr after with
      | none => rfl
      | some q =>
        obtain ⟨seg, rest⟩ := q
        show (if isOpenerTok (trimGo seg) = true then _ else _) =
          Option.map _ (if isOpenerTok (trimGo seg) = true then _ else _)
        by_cases hcase : isOpenerTok (trimGo seg) = true
        · rw [if_pos hcase, if_pos hcase]
          cases findDefEndA (d + 1) rest <;> simp
        · by_cases hend : trimGo seg = ("end").toList
          · by_cases hd : d = 0
            · rw [if_neg hcase, if_neg hcase, if_pos hend, if_pos hend, if_pos hd, if_pos hd]
              simp
            · rw [if_neg hcase, if_neg hcase, if_pos hend, if_pos hend, if_neg hd, if_neg hd]
              cases findDefEndA (d - 1) rest <;> simp
          · rw [if_neg hcase, if_neg hcase, if_neg hend, if_neg hend]
            cases findDefEnd rest.length d rest <;> simp
  | tok t =>
    intro d s
    obtain ⟨hbr, hop, hend⟩ := hw
    have h1 : findSub obr (renderT (.tok t) ++ s) = some ([], t ++ cbr ++ s) := by
      rw [show renderT (.tok t) ++ s = obr ++ (t ++ cbr ++ s) by simp [renderT]]
      exact findSub_self obr _ (by decide)
    have h2 : findSub cbr (t ++ cbr ++ s) = some (t, s) := by
      rw [show t ++ cbr ++ s = t ++ (cbr ++ s) by simp,
        findSub_cbr_clean t (cbr ++ s) hbr,
        findSub_self cbr s (by decide)]
      simp
    rw [findDefEndA_eq]
    simp only [h1, h2]
    rw [if_neg (by simp [hop]), if_neg hend]
    have hfi : findDefEnd s.length d s = findDefEndA d s :=
      findDefEnd_fi s.length (s.length + 1) d s (le_of_eq rfl) (by omega)
    rw [hfi]
    cases findDefEndA d s <;> simp [renderT]
  | blockT op body ih =>
    intro d s
    obtain ⟨hbr, hop, hwb⟩ := hw
    have h1 : findSub obr (renderT (.blockT op body) ++ s) =
        some ([], op ++ cbr ++ (renderT body ++ endTok ++ s)) := by
      rw [show renderT (.blockT op body) ++ s =
        obr ++ (op ++ cbr ++ (renderT body ++ endTok ++ s)) by simp [renderT]]
      exact findSub_self obr _ (by decide)
    have h2 : findSub cbr (op ++ cbr ++ (renderT body ++ endTok ++ s)) =
        some (op, renderT body ++ endTok ++ s) := by
      rw [show op ++ cbr ++ (renderT body ++ endTok ++ s) =
        op ++ (cbr ++ (renderT body ++ endTok ++ s)) by simp,
        findSub_cbr_clean op (cbr ++ (renderT body ++ endTok ++ s)) hbr,
        findSub_self cbr _ (by decide)]
      simp
    rw [findDefEndA_eq]
    simp only [h1, h2]
    rw [if_pos hop]
    rw [show renderT body ++ endTok ++ s = renderT body ++ (endTok ++ s) by simp]
    rw [ih hwb (d + 1) (endTok ++ s), endTok_step d s]
    cases findDefEndA d s <;> simp [renderT]
  | seq a b iha ihb =>
    intro d s
    obtain ⟨hwa, hwb⟩ := hw
    rw [show renderT (.seq a b) ++ s = renderT a ++ (renderT b ++ s) by simp [renderT]]
    rw [iha hwa d (renderT b ++ s), ihb hwb d s]
    cases findDefEndA d s <;> simp [renderT]

theorem dropWS_ws_cons {c : Char} (t : List Char) (h : isWS c = true) :
    dropWS (c :: t) = dropWS t := by
  simp [dropWS, List.dropWhile_cons, h]

theorem endTok_base (s : List Char) :
    findDefEndA 0 (endTok ++ s) = some ([], s) := by
  have h1 : findSub obr (endTok ++ s) = some ([], ("end").toList ++ cbr ++ s) := by
    rw [show endTok ++ s = obr ++ (("end").toList ++ cbr ++ s) by simp [endTok]]
    exact findSub_self obr _ (by decide)
  have h2 : findSub cbr (("end").toList ++ cbr ++ s) = some (("end").toList, s) := by
    rw [show ("end").toList ++ cbr ++ s = ("end").toList ++ (cbr ++ s) by simp,
      findSub_cbr_clean (("end").toList) (cbr ++ s) (by decide),
      findSub_self cbr s (by decide)]
    simp
  rw [findDefEndA_eq]
  simp only [h1, h2]
  rw [if_neg (by decide : ¬isOpenerTok (trimGo (("end").toList)) = true),
    if_pos (by decide : trimGo (("end").toList) = ("end").toList)]
  simp

theorem tryDefineStart_trig : TryTrig tryDefineStart lb := by
  intro c tl a h
  simp only [tryDefineStart] at h
  cases h1 : parseLit obr (c :: tl) with
  | none => simp only [h1] at h; exact Option.noConfusion h
  | some r1 =>
    simp only [parseLit] at h1
    by_cases hl : leadsWith obr (c :: tl) = true
    · exact leadsWith_head hl
    · simp [hl] at h1

theorem tryDefineStart_at (N X : List Char) (hne : N ≠ []) (hq : ∀ c ∈ N, c ≠ dq) :
    tryDefineStart (defineTok N ++ X) = some (N, X) := by
  have hsplit : ("define ").toList = ("define").toList ++ [' '] := rfl
  have hshape : defineTok N ++ X =
      obr ++ (("define").toList ++ (' ' :: (dq :: (N ++ dq :: (cbr ++ X))))) := by
    simp [defineTok, hsplit]
  have hdws : dropWS (("define").toList ++ (' ' :: (dq :: (N ++ dq :: (cbr ++ X))))) =
      ("define").toList ++ (' ' :: (dq :: (N ++ dq :: (cbr ++ X)))) := by
    rw [show ("define").toList ++ (' ' :: (dq :: (N ++ dq :: (cbr ++ X)))) =
      'd' :: (("efine").toList ++ (' ' :: (dq :: (N ++ dq :: (cbr ++ X))))) from rfl]
    exact dropWS_cons _ (by decide)
  have hdws2 : dropWS (' ' :: (dq :: (N ++ dq :: (cbr ++ X)))) =
      dq :: (N ++ dq :: (cbr ++ X)) := by
    rw [dropWS_ws_cons _ (by decide), dropWS_cons _ (by decide)]
  have htake : (N ++ dq :: (cbr ++ X)).takeWhile (fun x => x ≠ dq) = N :=
    takeWhile_append_stop _ N dq (cbr ++ X) (fun c hc => by simpa using hq c hc) (by simp)
  have hcbr : dropWS (cbr ++ X) = cbr ++ X := by
    rw [show cbr ++ X = rb :: ([rb] ++ X) from rfl]
    exact dropWS_cons _ (by decide)
  rw [hshape]
  simp only [tryDefineStart, parseLit_self, hdws, hdws2, expectCh_self, htake,
    if_neg hne, List.drop_left, hcbr]

theorem findA_tryDefineStart_at (N X : List Char) (hne : N ≠ []) (hq : ∀ c ∈ N, c ≠ dq) :
    findA tryDefineStart (defineTok N ++ X) = some ([], N, X) := by
  have h := tryDefineStart_at N X hne hq
  cases hd : defineTok N with
  | nil => simp [defineTok, obr] at hd
  | cons c tl =>
    rw [hd] at h
    rw [show (c :: tl) ++ X = c :: (tl ++ X) from rfl] at h ⊢
    exact findA_cons_some tryDefineStart c (tl ++ X) (N, X) h

theorem extractGo_stop (fuel : Nat) (acc : List (List Char × List Char)) (R : List Char)
    (hf : 1 ≤ fuel) (h : findA tryDefineStart R = none) :
    extractGo fuel acc R = some (acc, R) := by
  cases fuel with
  | zero => omega
  | succ f => simp [extractGo, h]

theorem extractDefines_single (N : List Char) (t : Tmpl) (R : List Char)
    (hne : N ≠ []) (hq : ∀ c ∈ N, c ≠ dq) (hw : WFT t) (hR : ∀ c ∈ R, c ≠ lb) :
    extractDefines (defineTok N ++ (renderT t ++ (endTok ++ R))) =
      some ([(N, renderT t)], R) := by
  have hfind : findA tryDefineStart (defineTok N ++ (renderT t ++ (endTok ++ R))) =
      some ([], N, renderT t ++ (endTok ++ R)) :=
    findA_tryDefineStart_at N _ hne hq
  have hbody : findDefEndA 0 (renderT t ++ (endTok ++ R)) = some (renderT t, R) := by
    rw [findDefEndA_render t hw 0 (endTok ++ R), endTok_base R]
    simp
  have hRnone : findA tryDefineStart R = none :=
    findA_clean_none tryDefineStart lb tryDefineStart_trig R hR
  have hlen : 1 ≤ (defineTok N ++ (renderT t ++ (endTok ++ R))).length := by
    cases hd : defineTok N with
    | nil => simp [defineTok, obr] at hd
    | cons c tl => simp only [List.cons_append, List.length_cons]; omega
  show extractGo ((defineTok N ++ (renderT t ++ (endTok ++ R))).length + 1) []
      (defineTok N ++ (renderT t ++ (endTok ++ R))) = some ([(N, renderT t)], R)
  simp only [extractGo, hfind, hbody]
  rw [show insertDef [] N (renderT t) = [(N, renderT t)] from rfl,
    show ([] : List Char) ++ R = R from rfl]
  exact extractGo_stop _ _ R hlen hRnone

/-- **C5.** The define-extraction of `combineWithLayout` balances nesting:
for every name `N` (nonempty, quote-free) and every body generated by the
nesting grammar `Tmpl` (well-formed for the scan), extracting from
`\x7b\x7bdefine "N"\x7d\x7d body \x7b\x7bend\x7d\x7d R` captures exactly
the full body — each inner opening keyword (`if`, `range`, `with`,
`block`, `define`) raises the depth, each `\x7b\x7bend\x7d\x7d` lowers
it, and the body ends at the close that returns the depth to zero, never
at an earlier inner close — records it under `N`, and removes the whole
construct, leaving exactly the residue `R`. -/
theorem claim_C5_balanced_extraction (N : List Char) (t : Tmpl) (R : List Char)
    (hne : N ≠ []) (hq : ∀ c ∈ N, c ≠ dq) (hw : WFT t) (hR : ∀ c ∈ R, c ≠ lb) :
    extractDefines (defineTok N ++ (renderT t ++ (endTok ++ R))) =
      some ([(N, renderT t)], R) :=
  extractDefines_single N t R hne hq hw hR

/-- Closed instance of the C5 theorem: a define body that itself contains
an `\x7b\x7bif\x7d\x7d…\x7b\x7bend\x7d\x7d` block is captured whole. -/
theorem claim_C5_balanced_extraction_witness :
    ((("c").toList : List Char) ≠ [] ∧ (∀ c ∈ ("c").toList, c ≠ dq) ∧
      WFT (.blockT (("if .x").toList) (.text (("A").toList))) ∧
      (∀ c ∈ ("R").toList, c ≠ lb)) ∧
    extractDefines (defineTok (("c").toList) ++
        (renderT (.blockT (("if .x").toList) (.text (("A").toList))) ++
          (endTok ++ ("R").toList))) =
      some ([((("c").toList : List Char),
        renderT (.blockT (("if .x").toList) (.text (("A").toList))))], ("R").toList) :=
  ⟨⟨by decide, by decide,
      ⟨by decide, by decide, show ∀ c ∈ ("A").toList, c ≠ lb by decide⟩, by decide⟩,
   claim_C5_balanced_extraction (("c").toList)
     (.blockT (("if .x").toList) (.text (("A").toList))) (("R").toList)
     (by decide) (by decide)
     ⟨by decide, by decide, show ∀ c ∈ ("A").toList, c ≠ lb by decide⟩ (by decide)⟩

/-! ## C1 and C7: the layout composer -/

theorem leadsWith_false_of_head_ne {p c : Char} (ps tl : List Char) (h : c ≠ p) :
    leadsWith (p :: ps) (c :: tl) = false := by
  cases hl : leadsWith (p :: ps) (c :: tl) with
  | false => rfl
  | true => exact absurd (leadsWith_head hl) h

theorem tryTmplName_obr_skip (c : Char) (tl : List Char)
    (hws : isWS c = false) (hc : c ≠ 't') :
    tryTmplName (obr ++ (c :: tl)) = none := by
  have h1 : parseLit obr (obr ++ (c :: tl)) = some (c :: tl) := parseLit_self obr _
  have h2 : parseLit (("template").toList) (dropWS (c :: tl)) = none := by
    rw [dropWS_cons _ hws,
      show ("template").toList = 't' :: ("emplate").toList from rfl]
    simp only [parseLit]
    rw [if_neg ?_]
    rw [leadsWith_false_of_head_ne (("emplate").toList) tl hc]
    simp
  simp only [tryTmplName, h1, h2]

theorem tryTmplName_single_lb (c : Char) (tl : List Char) (hc : c ≠ lb) :
    tryTmplName (lb :: (c :: tl)) = none := by
  have h1 : parseLit obr (lb :: (c :: tl)) = none := by
    simp only [parseLit]
    rw [if_neg ?_]
    intro h
    simp only [obr, leadsWith, Bool.and_eq_true, decide_eq_true_eq] at h
    exact hc h.2.1.symm
  simp only [tryTmplName, h1]

theorem tryTmplContent_none (defines : List (List Char × List Char)) (s : List Char)
    (h : tryTmplName s = none) : tryTmplContent defines s = none := by
  simp only [tryTmplContent, h]

theorem tryTmplAny_none (defines : List (List Char × List Char)) (s : List Char)
    (h : tryTmplName s = none) : tryTmplAny defines s = none := by
  simp only [tryTmplAny, h]

theorem tryTmplName_trig : TryTrig tryTmplName lb := by
  intro c tl a h
  simp only [tryTmplName] at h
  cases h1 : parseLit obr (c :: tl) with
  | none => simp only [h1] at h; exact Option.noConfusion h
  | some r1 =>
    simp only [parseLit] at h1
    by_cases hl : leadsWith obr (c :: tl) = true
    · exact leadsWith_head hl
    · simp [hl] at h1

theorem tryTmplContent_trig (defines : List (List Char × List Char)) :
    TryTrig (tryTmplContent defines) lb := by
  intro c tl a h
  cases h1 : tryTmplName (c :: tl) with
  | none => rw [tryTmplContent_none defines _ h1] at h; exact Option.noConfusion h
  | some p => exact tryTmplName_trig c tl p h1

theorem tryTmplAny_trig (defines : List (List Char × List Char)) :
    TryTrig (tryTmplAny defines) lb := by
  intro c tl a h
  cases h1 : tryTmplName (c :: tl) with
  | none => rw [tryTmplAny_none defines _ h1] at h; exact Option.noConfusion h
  | some p => exact tryTmplName_trig c tl p h1

/-- Skip one `\x7b\x7b…` token the scanner does not recognise: the scan
fails at the two opening-brace positions, then the token's interior is
free of `\x7b`. -/
theorem scanA_token_skip (try1 : List Char → Option (List Char × List Char))
    (ht : TryTrig try1 lb) (T X : List Char) (hT : ∀ c ∈ T, c ≠ lb)
    (h0 : try1 (lb :: (lb :: (T ++ X))) = none)
    (h1 : try1 (lb :: (T ++ X)) = none) :
    scanA try1 (lb :: (lb :: (T ++ X))) = lb :: (lb :: T) ++ scanA try1 X := by
  rw [scanA_cons_none try1 _ _ h0, scanA_cons_none try1 _ _ h1,
    scanA_append_clean try1 lb ht T X hT]
  simp

theorem tryEndTok_at (X : List Char) : tryEndTok (endTok ++ X) = some X := by
  have hshape : endTok ++ X = obr ++ (("end").toList ++ (cbr ++ X)) := by simp [endTok]
  have hdws : dropWS (("end").toList ++ (cbr ++ X)) = ("end").toList ++ (cbr ++ X) := by
    rw [show ("end").toList ++ (cbr ++ X) = 'e' :: (("nd").toList ++ (cbr ++ X)) from rfl]
    exact dropWS_cons _ (by decide)
  have hcbr : dropWS (cbr ++ X) = cbr ++ X := by
    rw [show cbr ++ X = rb :: ([rb] ++ X) from rfl]
    exact dropWS_cons _ (by decide)
  rw [hshape]
  simp only [tryEndTok, parseLit_self, hdws, hcbr]

theorem tryEndTok_trig : TryTrig tryEndTok lb := by
  intro c tl a h
  simp only [tryEndTok] at h
  cases h1 : parseLit obr (c :: tl) with
  | none => simp only [h1] at h; exact Option.noConfusion h
  | some r1 =>
    simp only [parseLit] at h1
    by_cases hl : leadsWith obr (c :: tl) = true
    · exact leadsWith_head hl
    · simp [hl] at h1

theorem tryEndTok_lt : ∀ s r, tryEndTok s = some r → r.length < s.length := by
  intro s r h
  simp only [tryEndTok] at h
  cases p1 : parseLit obr s with
  | none => simp only [p1] at h; exact Option.noConfusion h
  | some r1 =>
    simp only [p1] at h
    cases p2 : parseLit (("end").toList) (dropWS r1) with
    | none => simp only [p2] at h; exact Option.noConfusion h
    | some r2 =>
      simp only [p2] at h
      have h1 := parseLit_length_lt obr s r1 (by decide) p1
      have h2 := parseLit_length_le _ _ _ p2
      have h3 := dropWS_length_le r1
      have h4 := parseLit_length_le _ _ _ h
      have h5 := dropWS_length_le r2
      omega

theorem findGo_rest_lt (try1 : List Char → Option (List Char))
    (hlt : ∀ s r, try1 s = some r → r.length < s.length) :
    ∀ f s pre r, findGo try1 f s = some (pre, r) → pre.length + r.length < s.length := by
  intro f
  induction f with
  | zero => intro s pre r h; exact Option.noConfusion h
  | succ g ih =>
    intro s pre r h
    cases s with
    | nil => exact Option.noConfusion h
    | cons c tl =>
      cases ht : try1 (c :: tl) with
      | some r0 =>
        simp only [findGo, ht] at h
        obtain ⟨h1, h2⟩ := Prod.mk.injEq .. ▸ Option.some.inj h
        subst h1
        subst h2
        simpa using hlt _ _ ht
      | none =>
        simp only [findGo, ht] at h
        cases hg : findGo try1 g tl with
        | none => rw [hg] at h; exact Option.noConfusion h
        | some q =>
          obtain ⟨pre1, r1⟩ := q
          rw [hg] at h
          simp only [Option.map_some'] at h
          obtain ⟨h1, h2⟩ := Prod.mk.injEq .. ▸ Option.some.inj h
          subst h1
          subst h2
          have := ih tl pre1 r1 hg
          simp only [List.length_cons]
          omega

theorem findA_rest_lt (try1 : List Char → Option (List Char))
    (hlt : ∀ s r, try1 s = some r → r.length < s.length)
    (s pre r : List Char) (h : findA try1 s = some (pre, r)) :
    pre.length + r.length < s.length :=
  findGo_rest_lt try1 hlt s.length s pre r h

theorem tryBlockOpen_trig : TryTrig tryBlockOpen lb := by
  intro c tl a h
  simp only [tryBlockOpen] at h
  cases h1 : parseLit obr (c :: tl) with
  | none => simp only [h1] at h; exact Option.noConfusion h
  | some r1 =>
    simp only [parseLit] at h1
    by_cases hl : leadsWith obr (c :: tl) = true
    · exact leadsWith_head hl
    · simp [hl] at h1

theorem tryBlockFull_trig : TryTrig tryBlockFull lb := by
  intro c tl a h
  simp only [tryBlockFull] at h
  cases h1 : tryBlockOpen (c :: tl) with
  | none => simp only [h1] at h; exact Option.noConfusion h
  | some p => exact tryBlockOpen_trig c tl p h1

theorem tryBlock_trig (defines : List (List Char × List Char)) :
    TryTrig (tryBlock defines) lb := by
  intro c tl a h
  simp only [tryBlock] at h
  cases h1 : tryBlockOpen (c :: tl) with
  | none => simp only [h1] at h; exact Option.noConfusion h
  | some p => exact tryBlockOpen_trig c tl p h1

theorem tryBlockOpen_lt : ∀ s nm r, tryBlockOpen s = some (nm, r) → r.length < s.length := by
  intro s nm r h
  simp only [tryBlockOpen] at h
  cases p1 : parseLit obr s with
  | none => simp only [p1] at h; exact Option.noConfusion h
  | some r1 =>
    simp only [p1] at h
    cases p2 : parseLit (("block").toList) (dropWS r1) with
    | none => simp only [p2] at h; exact Option.noConfusion h
    | some r2 =>
      simp only [p2] at h
      cases p3 : expectCh dq (dropWS r2) with
      | none => simp only [p3] at h; exact Option.noConfusion h
      | some r3 =>
        simp only [p3] at h
        by_cases hnm : r3.takeWhile (fun x => x ≠ dq) = []
        · rw [if_pos hnm] at h; exact Option.noConfusion h
        · rw [if_neg hnm] at h
          cases p4 : expectCh dq (r3.drop (r3.takeWhile (fun x => x ≠ dq)).length) with
          | none => simp only [p4] at h; exact Option.noConfusion h
          | some r4 =>
            simp only [p4] at h
            cases p5 : expectCh '.' (dropWS r4) with
            | none => simp only [p5] at h; exact Option.noConfusion h
            | some r5 =>
              simp only [p5] at h
              have h1 := parseLit_length_lt obr s r1 (by decide) p1
              have h2 := parseLit_length_le _ _ _ p2
              have h3 := dropWS_length_le r1
              have h4 := expectCh_length_lt _ _ _ p3
              have h5 := dropWS_length_le r2
              have h6 := expectCh_length_lt _ _ _ p4
              have h7 : (r3.drop (r3.takeWhile (fun x => x ≠ dq)).length).length ≤ r3.length := by
                rw [List.length_drop]; omega
              have h8 := expectCh_length_lt _ _ _ p5
              have h9 := dropWS_length_le r4
              cases p6 : parseLit cbr (dropWS r5) with
              | none => simp only [p6] at h; exact Option.noConfusion h
              | some r6 =>
                simp only [p6] at h
                obtain ⟨hr1, hr2⟩ := Prod.mk.injEq .. ▸ Option.some.inj h
                subst hr2
                have h10 := parseLit_length_le _ _ _ p6
                have h11 := dropWS_length_le r5
                omega

theorem tryBlock_dec (defines : List (List Char × List Char)) :
    TryDec (tryBlock defines) := by
  intro s r rest h
  simp only [tryBlock] at h
  cases hbo : tryBlockOpen s with
  | none => simp only [hbo] at h; exact Option.noConfusion h
  | some p =>
    obtain ⟨nm, r0⟩ := p
    simp only [hbo] at h
    cases hfa : findA tryEndTok r0 with
    | none => simp only [hfa] at h; exact Option.noConfusion h
    | some q =>
      obtain ⟨deflt, rest0⟩ := q
      simp only [hfa] at h
      have h1 := tryBlockOpen_lt s nm r0 hbo
      have h2 := findA_rest_lt tryEndTok tryEndTok_lt r0 deflt rest0 hfa
      cases hld : lookupDef defines nm with
      | some body =>
        simp only [hld] at h
        obtain ⟨hr1, hr2⟩ := Prod.mk.injEq .. ▸ Option.some.inj h
        subst hr2
        omega
      | none =>
        simp only [hld] at h
        obtain ⟨hr1, hr2⟩ := Prod.mk.injEq .. ▸ Option.some.inj h
        subst hr2
        omega

theorem tryBlockOpen_at (N X : List Char) (hne : N ≠ []) (hq : ∀ c ∈ N, c ≠ dq) :
    tryBlockOpen (blockTok N ++ X) = some (N, X) := by
  have hsplit1 : ("block ").toList = ("block").toList ++ [' '] := rfl
  have hshape : blockTok N ++ X =
      obr ++ (("block").toList ++ (' ' :: (dq :: (N ++ dq :: (' ' :: ('.' :: (cbr ++ X))))))) := by
    simp [blockTok, hsplit1]
  have hdws : dropWS (("block").toList ++ (' ' :: (dq :: (N ++ dq :: (' ' :: ('.' :: (cbr ++ X))))))) =
      ("block").toList ++ (' ' :: (dq :: (N ++ dq :: (' ' :: ('.' :: (cbr ++ X)))))) := by
    rw [show ("block").toList ++ (' ' :: (dq :: (N ++ dq :: (' ' :: ('.' :: (cbr ++ X)))))) =
      'b' :: (("lock").toList ++ (' ' :: (dq :: (N ++ dq :: (' ' :: ('.' :: (cbr ++ X))))))) from rfl]
    exact dropWS_cons _ (by decide)
  have hdws2 : dropWS (' ' :: (dq :: (N ++ dq :: (' ' :: ('.' :: (cbr ++ X)))))) =
      dq :: (N ++ dq :: (' ' :: ('.' :: (cbr ++ X)))) := by
    rw [dropWS_ws_cons _ (by decide), dropWS_cons _ (by decide)]
  have htake : (N ++ dq :: (' ' :: ('.' :: (cbr ++ X)))).takeWhile (fun x => x ≠ dq) = N :=
    takeWhile_append_stop _ N dq (' ' :: ('.' :: (cbr ++ X)))
      (fun c hc => by simpa using hq c hc) (by simp)
  have hdws3 : dropWS (' ' :: ('.' :: (cbr ++ X))) = '.' :: (cbr ++ X) := by
    rw [dropWS_ws_cons _ (by decide), dropWS_cons _ (by decide)]
  have hcbr : dropWS (cbr ++ X) = cbr ++ X := by
    rw [show cbr ++ X = rb :: ([rb] ++ X) from rfl]
    exact dropWS_cons _ (by decide)
  rw [hshape]
  simp only [tryBlockOpen, parseLit_self, hdws, hdws2, expectCh_self, htake,
    if_neg hne, List.drop_left, hdws3, hcbr]

theorem findA_endTok_head (B : List Char) :
    findA tryEndTok (endTok ++ B) = some ([], B) := by
  have h := tryEndTok_at B
  cases hd : endTok with
  | nil => simp [endTok, obr] at hd
  | cons c tl =>
    rw [hd] at h
    rw [show (c :: tl) ++ B = c :: (tl ++ B) from rfl] at h ⊢
    exact findA_cons_some tryEndTok c (tl ++ B) B h

theorem findA_endTok_default (D B : List Char) (hD : ∀ c ∈ D, c ≠ lb) :
    findA tryEndTok (D ++ (endTok ++ B)) = some (D, B) := by
  rw [findA_append_clean tryEndTok lb tryEndTok_trig D (endTok ++ B) hD,
    findA_endTok_head B]
  simp

theorem tryBlock_at (defines : List (List Char × List Char)) (N D B : List Char)
    (hne : N ≠ []) (hq : ∀ c ∈ N, c ≠ dq) (hD : ∀ c ∈ D, c ≠ lb) :
    tryBlock defines (blockTok N ++ (D ++ (endTok ++ B))) =
      match lookupDef defines N with
      | some body => some (body, B)
      | none => some (D, B) := by
  simp only [tryBlock, tryBlockOpen_at N _ hne hq, findA_endTok_default D B hD]

theorem tryBlockFull_at (N D B : List Char)
    (hne : N ≠ []) (hq : ∀ c ∈ N, c ≠ dq) (hD : ∀ c ∈ D, c ≠ lb) :
    tryBlockFull (blockTok N ++ (D ++ (endTok ++ B))) = some () := by
  simp only [tryBlockFull, tryBlockOpen_at N _ hne hq, findA_endTok_default D B hD,
    Option.map_some']

theorem hasBlockMatch_layout (A N D B : List Char)
    (hA : ∀ c ∈ A, c ≠ lb) (hne : N ≠ []) (hq : ∀ c ∈ N, c ≠ dq)
    (hD : ∀ c ∈ D, c ≠ lb) :
    hasBlockMatch (A ++ (blockTok N ++ (D ++ (endTok ++ B)))) = true := by
  have h := tryBlockFull_at N D B hne hq hD
  have hhead : findA tryBlockFull (blockTok N ++ (D ++ (endTok ++ B))) = some ([], ()) := by
    cases hd : blockTok N with
    | nil => simp [blockTok, obr] at hd
    | cons c tl =>
      rw [hd] at h
      rw [show (c :: tl) ++ (D ++ (endTok ++ B)) = c :: (tl ++ (D ++ (endTok ++ B))) from rfl]
        at h ⊢
      exact findA_cons_some tryBlockFull c _ () h
  rw [hasBlockMatch,
    findA_append_clean tryBlockFull lb tryBlockFull_trig A _ hA, hhead]
  rfl

theorem hasBlockMatch_clean (s : List Char) (hs : ∀ c ∈ s, c ≠ lb) :
    hasBlockMatch s = false := by
  rw [hasBlockMatch, findA_clean_none tryBlockFull lb tryBlockFull_trig s hs]
  rfl

/-- The two template-inlining scans leave a layout of the schematic shape
`A ++ \x7b\x7bblock "N" .\x7d\x7d ++ D ++ \x7b\x7bend\x7d\x7d ++ B`
unchanged: no `\x7b\x7btemplate …\x7d\x7d` placeholder occurs in it. -/
theorem scanA_tmplLike_layout_id (try1 : List Char → Option (List Char × List Char))
    (ht : TryTrig try1 lb)
    (hnone : ∀ s, tryTmplName s = none → try1 s = none)
    (A N D B : List Char)
    (hA : ∀ c ∈ A, c ≠ lb) (hNlb : ∀ c ∈ N, c ≠ lb) (hD : ∀ c ∈ D, c ≠ lb)
    (hB : ∀ c ∈ B, c ≠ lb) :
    scanA try1 (A ++ (blockTok N ++ (D ++ (endTok ++ B)))) =
      A ++ (blockTok N ++ (D ++ (endTok ++ B))) := by
  have hlit1 : ∀ c ∈ ("block ").toList, c ≠ lb := by decide
  have hlit2 : ∀ c ∈ (" .").toList, c ≠ lb := by decide
  have hlit3 : ∀ c ∈ cbr, c ≠ lb := by decide
  have hdq : dq ≠ lb := by decide
  have hTb : ∀ c ∈ ("block ").toList ++ ((dq :: N) ++ ((dq :: (" .").toList) ++ cbr)),
      c ≠ lb := by
    intro c hc
    rcases List.mem_append.mp hc with h | h
    · exact hlit1 c h
    · rcases List.mem_append.mp h with h | h
      · rcases List.mem_cons.mp h with h | h
        · exact h ▸ hdq
        · exact hNlb c h
      · rcases List.mem_append.mp h with h | h
        · rcases List.mem_cons.mp h with h | h
          · exact h ▸ hdq
          · exact hlit2 c h
        · exact hlit3 c h
  have hsh1 : blockTok N ++ (D ++ (endTok ++ B)) =
      lb :: (lb :: ((("block ").toList ++ ((dq :: N) ++ ((dq :: (" .").toList) ++ cbr))) ++
        (D ++ (endTok ++ B)))) := by
    simp [blockTok, obr]
  have h0b : try1 (lb :: (lb :: ((("block ").toList ++
      ((dq :: N) ++ ((dq :: (" .").toList) ++ cbr))) ++ (D ++ (endTok ++ B))))) = none :=
    hnone _ (tryTmplName_obr_skip 'b'
      ((("lock ").toList ++ ((dq :: N) ++ ((dq :: (" .").toList) ++ cbr))) ++
        (D ++ (endTok ++ B))) (by decide) (by decide))
  have h1b : try1 (lb :: ((("block ").toList ++
      ((dq :: N) ++ ((dq :: (" .").toList) ++ cbr))) ++ (D ++ (endTok ++ B)))) = none :=
    hnone _ (tryTmplName_single_lb 'b'
      ((("lock ").toList ++ ((dq :: N) ++ ((dq :: (" .").toList) ++ cbr))) ++
        (D ++ (endTok ++ B))) (by decide))
  have hTe : ∀ c ∈ ("end").toList ++ cbr, c ≠ lb := by decide
  have hsh2 : endTok ++ B = lb :: (lb :: ((("end").toList ++ cbr) ++ B)) := by
    simp [endTok, obr]
  have h0e : try1 (lb :: (lb :: ((("end").toList ++ cbr) ++ B))) = none :=
    hnone _ (tryTmplName_obr_skip 'e' ((("nd").toList ++ cbr) ++ B) (by decide) (by decide))
  have h1e : try1 (lb :: ((("end").toList ++ cbr) ++ B)) = none :=
    hnone _ (tryTmplName_single_lb 'e' ((("nd").toList ++ cbr) ++ B) (by decide))
  rw [scanA_append_clean try1 lb ht A _ hA, hsh1,
    scanA_token_skip try1 ht _ _ hTb h0b h1b,
    scanA_append_clean try1 lb ht D _ hD, hsh2,
    scanA_token_skip try1 ht _ _ hTe h0e h1e,
    scanA_clean_id try1 lb ht B hB]
  simp [blockTok, endTok]

theorem scanA_tryBlock_layout (defines : List (List Char × List Char))
    (A N D B : List Char)
    (hA : ∀ c ∈ A, c ≠ lb) (hD : ∀ c ∈ D, c ≠ lb) (hB : ∀ c ∈ B, c ≠ lb)
    (hne : N ≠ []) (hq : ∀ c ∈ N, c ≠ dq) :
    scanA (tryBlock defines) (A ++ (blockTok N ++ (D ++ (endTok ++ B)))) =
      A ++ ((match lookupDef defines N with | some body => body | none => D) ++ B) := by
  rw [scanA_append_clean _ lb (tryBlock_trig defines) A _ hA]
  have htb := tryBlock_at defines N D B hne hq hD
  cases hld : lookupDef defines N with
  | some body =>
    simp only [hld] at htb ⊢
    cases hd : blockTok N with
    | nil => simp [blockTok, obr] at hd
    | cons c tl =>
      rw [hd] at htb
      rw [show (c :: tl) ++ (D ++ (endTok ++ B)) = c :: (tl ++ (D ++ (endTok ++ B)))
        from rfl] at htb ⊢
      rw [scanA_cons_some (tryBlock defines) (tryBlock_dec defines) c _ body B htb,
        scanA_clean_id (tryBlock defines) lb (tryBlock_trig defines) B hB]
  | none =>
    simp only [hld] at htb ⊢
    cases hd : blockTok N with
    | nil => simp [blockTok, obr] at hd
    | cons c tl =>
      rw [hd] at htb
      rw [show (c :: tl) ++ (D ++ (endTok ++ B)) = c :: (tl ++ (D ++ (endTok ++ B)))
        from rfl] at htb ⊢
      rw [scanA_cons_some (tryBlock defines) (tryBlock_dec defines) c _ D B htb,
        scanA_clean_id (tryBlock defines) lb (tryBlock_trig defines) B hB]

theorem blockLoop_stop (defines : List (List Char × List Char)) (f : Nat)
    (s : List Char) (h : hasBlockMatch s = false) :
    blockLoop defines (f + 1) s = some s := by
  have step : blockLoop defines (f + 1) s =
      if hasBlockMatch s then
        (if scanA (tryBlock defines) s = s then some s
         else blockLoop defines f (scanA (tryBlock defines) s))
      else some s := rfl
  rw [step, h]
  simp

theorem blockLoop_layout (defines : List (List Char × List Char)) (f : Nat)
    (A N D B repl : List Char)
    (hA : ∀ c ∈ A, c ≠ lb) (hD : ∀ c ∈ D, c ≠ lb) (hB : ∀ c ∈ B, c ≠ lb)
    (hne : N ≠ []) (hq : ∀ c ∈ N, c ≠ dq)
    (hrepl : (match lookupDef defines N with | some body => body | none => D) = repl)
    (hreplC : ∀ c ∈ repl, c ≠ lb) :
    blockLoop defines (f + 2) (A ++ (blockTok N ++ (D ++ (endTok ++ B)))) =
      some (A ++ (repl ++ B)) := by
  have hm := hasBlockMatch_layout A N D B hA hne hq hD
  have hs2 : scanA (tryBlock defines) (A ++ (blockTok N ++ (D ++ (endTok ++ B)))) =
      A ++ (repl ++ B) := by
    rw [scanA_tryBlock_layout defines A N D B hA hD hB hne hq, hrepl]
  have hclean2 : ∀ c ∈ A ++ (repl ++ B), c ≠ lb := by
    intro c hc
    rcases List.mem_append.mp hc with h | h
    · exact hA c h
    · rcases List.mem_append.mp h with h | h
      · exact hreplC c h
      · exact hB c h
  have hmem : lb ∈ A ++ (blockTok N ++ (D ++ (endTok ++ B))) := by
    refine List.mem_append.mpr (Or.inr (List.mem_append.mpr (Or.inl ?_)))
    simp [blockTok, obr]
  have hne2 : A ++ (repl ++ B) ≠ A ++ (blockTok N ++ (D ++ (endTok ++ B))) := by
    intro he
    rw [← he] at hmem
    exact hclean2 lb hmem rfl
  have step1 : blockLoop defines (f + 1 + 1) (A ++ (blockTok N ++ (D ++ (endTok ++ B)))) =
      if hasBlockMatch (A ++ (blockTok N ++ (D ++ (endTok ++ B)))) then
        (if scanA (tryBlock defines) (A ++ (blockTok N ++ (D ++ (endTok ++ B)))) =
            A ++ (blockTok N ++ (D ++ (endTok ++ B))) then
          some (A ++ (blockTok N ++ (D ++ (endTok ++ B))))
        else blockLoop defines (f + 1)
          (scanA (tryBlock defines) (A ++ (blockTok N ++ (D ++ (endTok ++ B))))))
      else some (A ++ (blockTok N ++ (D ++ (endTok ++ B)))) := rfl
  rw [show f + 2 = f + 1 + 1 from rfl, step1, hm, if_pos rfl, hs2, if_neg hne2]
  exact blockLoop_stop defines f _ (hasBlockMatch_clean _ hclean2)

theorem extractDefines_clean (R : List Char) (hR : ∀ c ∈ R, c ≠ lb) :
    extractDefines R = some ([], R) := by
  have h : findA tryDefineStart R = none :=
    findA_clean_none tryDefineStart lb tryDefineStart_trig R hR
  show extractGo (R.length + 1) [] R = some ([], R)
  exact extractGo_stop _ _ R (by omega) h

theorem containsSub_clean_lb (Z l4 : List Char) (hl4 : ∀ c ∈ l4, c ≠ lb) :
    containsSub (lb :: Z) l4 = false := by
  rw [containsSub, findSub_none_clean lb Z l4 hl4]
  rfl

theorem prependDefines_nil (l4 : List Char) : prependDefines [] l4 = l4 := rfl

theorem prependDefines_single_absent (N S l4 : List Char)
    (h1 : containsSub (defineTok N) l4 = false)
    (h2 : containsSub (obr ++ ("block ").toList ++ dq :: N ++ [dq]) l4 = false) :
    prependDefines [(N, S)] l4 = defineTok N ++ (S ++ (endTok ++ l4)) := by
  simp only [prependDefines]
  rw [if_neg (by simp)]
  simp only [List.foldl, h1, h2]
  simp [List.append_assoc]

/-- **C1.** Composition against a layout
`A \x7b\x7bblock "N" .\x7d\x7d D \x7b\x7bend\x7d\x7d B`: when the child
declares section `N` with body `S`, the whole block construct — markers
and default body `D` — is replaced by `S`; when the child declares no
section, the default body `D` is kept and only the wrapping markers are
stripped.  (The full outputs also show the composer's unconditional
suffixes: the leftover child text is appended and the captured define is
re-emitted in front — neither affects which body appears at the
placeholder.) -/
theorem claim_C1_block_replacement (f : Nat) (N A D B S R : List Char)
    (hA : ∀ c ∈ A, c ≠ lb) (hD : ∀ c ∈ D, c ≠ lb) (hB : ∀ c ∈ B, c ≠ lb)
    (hS : ∀ c ∈ S, c ≠ lb) (hR : ∀ c ∈ R, c ≠ lb)
    (hne : N ≠ []) (hq : ∀ c ∈ N, c ≠ dq) (hNlb : ∀ c ∈ N, c ≠ lb)
    (hRne : R ≠ []) :
    combineCore (f + 2) (A ++ (blockTok N ++ (D ++ (endTok ++ B))))
        (defineTok N ++ (S ++ (endTok ++ R))) =
      some (defineTok N ++ (S ++ (endTok ++ (A ++ (S ++ B) ++ R)))) ∧
    combineCore (f + 2) (A ++ (blockTok N ++ (D ++ (endTok ++ B)))) R =
      some (A ++ (D ++ B) ++ R) := by
  constructor
  · have hext : extractDefines (defineTok N ++ (S ++ (endTok ++ R))) =
        some ([(N, S)], R) :=
      extractDefines_single N (.text S) R hne hq hS hR
    have h1 := scanA_tmplLike_layout_id (tryTmplContent [(N, S)]) (tryTmplContent_trig _)
      (fun s h => tryTmplContent_none _ s h) A N D B hA hNlb hD hB
    have h2 := scanA_tmplLike_layout_id (tryTmplAny [(N, S)]) (tryTmplAny_trig _)
      (fun s h => tryTmplAny_none _ s h) A N D B hA hNlb hD hB
    have hlook : (match lookupDef [(N, S)] N with | some body => body | none => D) = S := by
      simp [lookupDef]
    have hbl := blockLoop_layout [(N, S)] f A N D B S hA hD hB hne hq hlook hS
    have hl4 : ∀ c ∈ A ++ (S ++ B) ++ R, c ≠ lb := by
      intro c hc
      rcases List.mem_append.mp hc with h | h
      · rcases List.mem_append.mp h with h | h
        · exact hA c h
        · rcases List.mem_append.mp h with h | h
          · exact hS c h
          · exact hB c h
      · exact hR c h
    have hc1 : containsSub (defineTok N) (A ++ (S ++ B) ++ R) = false := by
      rw [show defineTok N =
        lb :: ([lb] ++ (("define ").toList ++ ((dq :: N) ++ (dq :: cbr)))) from rfl]
      exact containsSub_clean_lb _ _ hl4
    have hc2 : containsSub (obr ++ ("block ").toList ++ dq :: N ++ [dq])
        (A ++ (S ++ B) ++ R) = false := by
      rw [show obr ++ ("block ").toList ++ dq :: N ++ [dq] =
        lb :: (([lb] ++ ("block ").toList ++ dq :: N ++ [dq])) from rfl]
      exact containsSub_clean_lb _ _ hl4
    simp only [combineCore, hext, h1, h2, hbl]
    rw [if_pos hRne, prependDefines_single_absent N S _ hc1 hc2]
  · have hext2 := extractDefines_clean R hR
    have h1 := scanA_tmplLike_layout_id (tryTmplContent []) (tryTmplContent_trig _)
      (fun s h => tryTmplContent_none _ s h) A N D B hA hNlb hD hB
    have h2 := scanA_tmplLike_layout_id (tryTmplAny []) (tryTmplAny_trig _)
      (fun s h => tryTmplAny_none _ s h) A N D B hA hNlb hD hB
    have hlook2 : (match lookupDef [] N with | some body => body | none => D) = D := rfl
    have hbl2 := blockLoop_layout [] f A N D B D hA hD hB hne hq hlook2 hD
    simp only [combineCore, hext2, h1, h2, hbl2]
    rw [ite_self, prependDefines_nil]

/-- Closed instance of the C1 theorem at a concrete child/layout pair. -/
theorem claim_C1_block_replacement_witness :
    ((∀ c ∈ ("L1").toList, c ≠ lb) ∧ (∀ c ∈ ("De").toList, c ≠ lb) ∧
      (∀ c ∈ ("L2").toList, c ≠ lb) ∧ (∀ c ∈ ("Hi").toList, c ≠ lb) ∧
      (∀ c ∈ ("X").toList, c ≠ lb) ∧ (("title").toList : List Char) ≠ [] ∧
      (∀ c ∈ ("title").toList, c ≠ dq) ∧ (∀ c ∈ ("title").toList, c ≠ lb) ∧
      (("X").toList : List Char) ≠ []) ∧
    (combineCore 2
        ((("L1").toList) ++ (blockTok (("title").toList) ++
          ((("De").toList) ++ (endTok ++ ("L2").toList))))
        (defineTok (("title").toList) ++ ((("Hi").toList) ++ (endTok ++ ("X").toList))) =
      some (defineTok (("title").toList) ++ ((("Hi").toList) ++ (endTok ++
        ((("L1").toList) ++ ((("Hi").toList) ++ ("L2").toList) ++ ("X").toList)))) ∧
     combineCore 2
        ((("L1").toList) ++ (blockTok (("title").toList) ++
          ((("De").toList) ++ (endTok ++ ("L2").toList))))
        (("X").toList) =
      some ((("L1").toList) ++ ((("De").toList) ++ ("L2").toList) ++ ("X").toList)) :=
  ⟨⟨by decide, by decide, by decide, by decide, by decide, by decide, by decide,
    by decide, by decide⟩,
   claim_C1_block_replacement 0 (("title").toList) (("L1").toList) (("De").toList)
     (("L2").toList) (("Hi").toList) (("X").toList)
     (by decide) (by decide) (by decide) (by decide) (by decide)
     (by decide) (by decide) (by decide) (by decide)⟩

/-- **C7 counterexample.** Child `\x7b\x7bdefine "t"\x7d\x7dH\x7b\x7bend\x7d\x7dX`
against layout `\x7b\x7bblock "t" .\x7d\x7dD\x7b\x7bend\x7d\x7d`: the
section `t` IS inlined (the `H` replacing the block is visible in the
output right after the re-emitted construct), yet its define block is
still prepended — the claim says only never-inlined definitions are
re-emitted.  The cause: the guard tests for the literal
`\x7b\x7bdefine "t"\x7d\x7d` in the composed text, and extraction has
already removed that literal from the child. -/
theorem claim_C7_counterexample :
    combineCore 2 (blockTok (("t").toList) ++ ((("D").toList) ++ (endTok ++ ([] : List Char))))
        (defineTok (("t").toList) ++ ((("H").toList) ++ (endTok ++ ("X").toList))) =
      some (defineTok (("t").toList) ++ ((("H").toList) ++ (endTok ++ ("HX").toList))) ∧
    leadsWith (defineTok (("t").toList))
      (defineTok (("t").toList) ++ ((("H").toList) ++ (endTok ++ ("HX").toList))) = true := by
  constructor
  · decide
  · decide

/-- **C7 amended.** The re-emission guard is literal containment in the
composed text, not inlining history: a captured define is prepended iff
the composed text contains neither the literal
`\x7b\x7bdefine "N"\x7d\x7d` nor the literal `\x7b\x7bblock "N"` — in
particular, a define whose body was inlined (removing the literals) is
re-emitted anyway. -/
theorem claim_C7_literal_keyed_prepend (N S l4 : List Char) :
    (containsSub (defineTok N) l4 = true ∨
        containsSub (obr ++ ("block ").toList ++ dq :: N ++ [dq]) l4 = true →
      prependDefines [(N, S)] l4 = l4) ∧
    (containsSub (defineTok N) l4 = false →
      containsSub (obr ++ ("block ").toList ++ dq :: N ++ [dq]) l4 = false →
      prependDefines [(N, S)] l4 = defineTok N ++ (S ++ (endTok ++ l4))) := by
  constructor
  · intro h
    simp only [prependDefines]
    rw [if_neg (by simp)]
    simp only [List.foldl]
    rcases h with h | h
    · rw [h]
      simp
    · rw [h]
      simp
  · intro hp1 hp2
    exact prependDefines_single_absent N S l4 hp1 hp2

/-- Closed instance of the amended C7 theorem: present literal →
untouched; absent literals → prepended. -/
theorem claim_C7_literal_keyed_prepend_witness :
    prependDefines [((("t").toList : List Char), ("H").toList)]
        (defineTok (("t").toList) ++ ("Z").toList) =
      defineTok (("t").toList) ++ ("Z").toList ∧
    prependDefines [((("t").toList : List Char), ("H").toList)] (("Z").toList) =
      defineTok (("t").toList) ++ ((("H").toList) ++ (endTok ++ ("Z").toList)) :=
  ⟨(claim_C7_literal_keyed_prepend (("t").toList) (("H").toList) _).1 (Or.inl (by decide)),
   (claim_C7_literal_keyed_prepend (("t").toList) (("H").toList) _).2 (by decide) (by decide)⟩

/-! ## C3 and C6: validation gaps, missing includes, include cycles -/

/-- Two templates whose `@include` references form a cycle. -/
def fsCyc : List (List Char × List Char) :=
  [((("t/a").toList), (("@include('b')").toList)),
   ((("t/b").toList), (("@include('a')").toList))]

theorem processInclude_single_include_none
    (recFile : List Char → Option (Except Err (List Char)))
    (dir : List Char) (fs : List (List Char × List Char))
    (c : Char) (tl nm matched : List Char)
    (ht : tryInclude (c :: tl) = some (nm, matched, []))
    (hhas : fsHas fs (joinPath dir nm) = true)
    (hrec : recFile (joinPath dir nm) = none) :
    processInclude recFile dir fs (c :: tl) = none := by
  simp only [processInclude, includeScan, ht, hhas, if_true, hrec]

theorem processAllDirectives_pi_none
    (recFile : List Char → Option (Except Err (List Char)))
    (dir : List Char) (fs : List (List Char × List Char)) (content path : List Char)
    (hps : processSections content path = .ok content)
    (hpy : processYield content = content)
    (hpi : processInclude recFile dir fs content = none) :
    processAllDirectives recFile dir fs content path = none := by
  simp only [processAllDirectives, hps, hpy, hpi]

theorem compileStrAux_pad_none (hostOk : List Char → Bool)
    (recFile : List Char → Option (Except Err (List Char)))
    (recStr : List Char → List Char → Option (Except Err (List Char)))
    (dir : List Char) (fs : List (List Char × List Char)) (bf : Nat)
    (content path : List Char)
    (hpe : processExtends content = (content, []))
    (hpad : processAllDirectives recFile dir fs content path = none) :
    compileStrAux hostOk recFile recStr dir fs bf content path = none := by
  simp only [compileStrAux, hpe, hpad]

/-- The mutual divergence of the two-template include cycle, at every
fuel: neither compilation ever produces a result (Go: the recursion
`Compile → CompileString → processInclude → Compile` never returns). -/
theorem include_cycle_diverges : ∀ n,
    compileStr (fun _ => true) (("t").toList) fsCyc n
        (("@include('b')").toList) (("t/a").toList) = none ∧
    compileStr (fun _ => true) (("t").toList) fsCyc n
        (("@include('a')").toList) (("t/b").toList) = none := by
  intro n
  induction n with
  | zero => exact ⟨rfl, rfl⟩
  | succ m ih =>
    obtain ⟨ih1, ih2⟩ := ih
    constructor
    · exact compileStrAux_pad_none _ _ _ _ _ _ _ _ rfl
        (processAllDirectives_pi_none _ _ _ _ _ rfl rfl
          (by
            rw [show (("@include('b')").toList) = '@' :: (("include('b')").toList) from rfl]
            exact processInclude_single_include_none _ _ _ '@' _ (("b").toList) _ rfl rfl
              (by
                show compileStr (fun _ => true) (("t").toList) fsCyc m
                  (("@include('a')").toList)
                  (joinPath (("t").toList) (("b").toList)) = none
                exact ih2)))
    · exact compileStrAux_pad_none _ _ _ _ _ _ _ _ rfl
        (processAllDirectives_pi_none _ _ _ _ _ rfl rfl
          (by
            rw [show (("@include('a')").toList) = '@' :: (("include('a')").toList) from rfl]
            exact processInclude_single_include_none _ _ _ '@' _ (("a").toList) _ rfl rfl
              (by
                show compileStr (fun _ => true) (("t").toList) fsCyc m
                  (("@include('b')").toList)
                  (joinPath (("t").toList) (("a").toList)) = none
                exact ih1)))

/-- **C6 counterexample.** On the two-file include cycle, compilation at
fuel 5 produces neither a compiled text nor an error — no cycle is
detected and no error is reported (the Go code recurses indefinitely:
`processInclude` re-enters `Compile` with no depth or visited-set
guard). -/
theorem claim_C6_counterexample :
    compileFile (fun _ => true) (("t").toList) fsCyc 5 (("t/a").toList) = none := rfl

/-- **C6 amended.** Compilation does NOT terminate on include cycles —
on the two-file cycle it returns no result at any fuel, with no error
reported (no cycle detection exists); the missing-target half of the
claim does hold: an `@include` naming a nonexistent file yields the
include-not-found compile error. -/
theorem claim_C6_include_termination :
    (∀ n, compileFile (fun _ => true) (("t").toList) fsCyc n (("t/a").toList) = none) ∧
    compileStr (fun _ => true) (("t").toList) [] 2
        (("@include('x')\n").toList) (("p").toList) =
      some (.error (.includeNotFound (("x").toList))) := by
  constructor
  · intro n
    cases n with
    | zero => rfl
    | succ m =>
      show compileStr (fun _ => true) (("t").toList) fsCyc m
        (("@include('b')").toList) (("t/a").toList) = none
      exact (include_cycle_diverges m).1
  · rfl

/-- Closed instance of the C6 amended theorem at fuel 3. -/
theorem claim_C6_include_termination_witness :
    compileFile (fun _ => true) (("t").toList) fsCyc 3 (("t/a").toList) = none :=
  (claim_C6_include_termination).1 3

theorem trySectionPair_trig : TryTrig trySectionPair '@' := by
  intro c tl a h
  simp only [trySectionPair] at h
  cases h1 : parseLit atSection (c :: tl) with
  | none => simp only [h1] at h; exact Option.noConfusion h
  | some r1 =>
    simp only [parseLit] at h1
    by_cases hl : leadsWith atSection (c :: tl) = true
    · exact leadsWith_head hl
    · simp [hl] at h1

theorem trySectionSingle_trig : TryTrig trySectionSingle '@' := by
  intro c tl a h
  simp only [trySectionSingle] at h
  cases h1 : parseLit atSection (c :: tl) with
  | none => simp only [h1] at h; exact Option.noConfusion h
  | some r1 =>
    simp only [parseLit] at h1
    by_cases hl : leadsWith atSection (c :: tl) = true
    · exact leadsWith_head hl
    · simp [hl] at h1

theorem findSub_cons_neg (pat : List Char) (c : Char) (tl : List Char)
    (h : leadsWith pat (c :: tl) = false) :
    findSub pat (c :: tl) = (findSub pat tl).map (fun p => (c :: p.1, p.2)) := by
  rw [show findSub pat (c :: tl) =
    (if leadsWith pat (c :: tl) then some ([], (c :: tl).drop pat.length)
     else (findSub pat tl).map (fun p => (c :: p.1, p.2))) from rfl, h]
  simp

theorem trySectionPair_endsec (B : List Char) :
    trySectionPair ('@' :: (("endsection").toList ++ B)) = none := rfl

theorem trySectionSingle_endsec (B : List Char) :
    trySectionSingle ('@' :: (("endsection").toList ++ B)) = none := rfl

/-- A lone `@endsection` in otherwise `@`-free text survives both
section scans and makes `processSections` return the unclosed-section
error naming the template path. -/
theorem processSections_endsec_error (A B path : List Char)
    (hA : ∀ c ∈ A, c ≠ '@') (hB : ∀ c ∈ B, c ≠ '@') :
    processSections (A ++ (atEndsection ++ B)) path =
      .error (.unclosedSection path) := by
  have he : atEndsection ++ B = '@' :: (("endsection").toList ++ B) := rfl
  have hs1 : scanA trySectionPair (A ++ (atEndsection ++ B)) =
      A ++ (atEndsection ++ B) := by
    rw [he, scanA_append_clean _ '@' trySectionPair_trig A _ hA,
      scanA_cons_none _ '@' _ (trySectionPair_endsec B),
      scanA_append_clean _ '@' trySectionPair_trig (("endsection").toList) B (by decide),
      scanA_clean_id _ '@' trySectionPair_trig B hB]
  have hs2 : scanA trySectionSingle (A ++ (atEndsection ++ B)) =
      A ++ (atEndsection ++ B) := by
    rw [he, scanA_append_clean _ '@' trySectionSingle_trig A _ hA,
      scanA_cons_none _ '@' _ (trySectionSingle_endsec B),
      scanA_append_clean _ '@' trySectionSingle_trig (("endsection").toList) B (by decide),
      scanA_clean_id _ '@' trySectionSingle_trig B hB]
  have hcT : containsSub atEndsection (A ++ (atEndsection ++ B)) = true := by
    rw [containsSub, show atEndsection = '@' :: ("endsection").toList from rfl,
      findSub_append_clean '@' (("endsection").toList) A _ hA,
      findSub_self ('@' :: ("endsection").toList) B (by decide)]
    simp
  have hcF : containsSub atSection (A ++ (atEndsection ++ B)) = false := by
    rw [containsSub, show atSection = '@' :: ("section").toList from rfl,
      findSub_append_clean '@' (("section").toList) A _ hA, he]
    have hstep : findSub ('@' :: ("section").toList)
        ('@' :: (("endsection").toList ++ B)) =
        (findSub ('@' :: ("section").toList) (("endsection").toList ++ B)).map
          (fun p => ('@' :: p.1, p.2)) :=
      findSub_cons_neg ('@' :: ("section").toList) '@' (("endsection").toList ++ B) rfl
    rw [hstep, findSub_append_clean '@' (("section").toList) (("endsection").toList) B
        (by decide),
      findSub_none_clean '@' (("section").toList) B hB]
    simp
  simp only [processSections, hs1, hs2, hcF, hcT]
  simp

/-- `compileStrAux` when no layout is involved and the composed text
fails the host syntax check: the host-syntax compile error is returned
and no compiled text. -/
theorem compileStrAux_validate_fail (hostOk : List Char → Bool)
    (recFile : List Char → Option (Except Err (List Char)))
    (recStr : List Char → List Char → Option (Except Err (List Char)))
    (dir : List Char) (fs : List (List Char × List Char)) (bf : Nat)
    (content path out : List Char)
    (hpe : processExtends content = (content, []))
    (hpad : processAllDirectives recFile dir fs content path = some (.ok out))
    (hh : hostOk out = false) :
    compileStrAux hostOk recFile recStr dir fs bf content path =
      some (.error .hostSyntax) := by
  simp only [compileStrAux, hpe, hpad]
  rw [if_neg (by simp)]
  simp only [validateTemplateSyntax, hh]
  simp

/-- **C3.** Unbalanced directives produce a compile error, never a
compiled text.  (a) A `@section`/`@endsection` literal that survives
the section scans — e.g. a lone `@endsection` — yields the
unclosed-section error naming the template path.  (b), (c) A
`@section('a')` with no `@endsection` (converted to an unterminated
define-open) and an `@if` with no `@endif` (converted to an
unterminated if-action) sail past the compiler's own count checks —
which are vacuous, since the variables pass re-spaces every action
(`\x7b\x7bif` → `\x7b\x7b if `, `\x7b\x7bend\x7d\x7d` →
`\x7b\x7b end \x7d\x7d`), as conjunct (d) records — but are then
rejected by the host syntax check (`template.Parse`, which fails on the
unterminated action with unexpected EOF; outside the modelled core, it
is the `hostOk` parameter): `CompileString` returns the host-syntax
compile error. -/
theorem claim_C3_unbalanced_error :
    (∀ A B path : List Char, (∀ c ∈ A, c ≠ '@') → (∀ c ∈ B, c ≠ '@') →
      processSections (A ++ (atEndsection ++ B)) path =
        .error (.unclosedSection path)) ∧
    (∀ hostOk : List Char → Bool,
      hostOk (("\x7b\x7b define \"a\" \x7d\x7dB").toList) = false →
      compileStr hostOk (("t").toList) [] 2
          (("@section('a')\nB").toList) (("p").toList) =
        some (.error .hostSyntax)) ∧
    (∀ hostOk : List Char → Bool,
      hostOk (("\x7b\x7b if .x \x7d\x7d\nA").toList) = false →
      compileStr hostOk (("t").toList) [] 2
          (("@if(.x)\nA").toList) (("p").toList) =
        some (.error .hostSyntax)) ∧
    validateTemplateSyntax (fun _ => true) (("\x7b\x7b define \"a\" \x7d\x7dB").toList) =
        none ∧
    validateTemplateSyntax (fun _ => true) (("\x7b\x7b if .x \x7d\x7d\nA").toList) =
        none := by
  refine ⟨processSections_endsec_error, ?_, ?_, rfl, rfl⟩
  · intro hostOk hh
    exact compileStrAux_validate_fail hostOk _ _ (("t").toList) [] 1
      (("@section('a')\nB").toList) (("p").toList)
      (("\x7b\x7b define \"a\" \x7d\x7dB").toList) rfl rfl hh
  · intro hostOk hh
    exact compileStrAux_validate_fail hostOk _ _ (("t").toList) [] 1
      (("@if(.x)\nA").toList) (("p").toList)
      (("\x7b\x7b if .x \x7d\x7d\nA").toList) rfl rfl hh

/-- Closed instance of the C3 theorem: the section half at
`X@endsectionY`, and the host-rejection half at a host check that
refuses the unterminated if-action. -/
theorem claim_C3_unbalanced_error_witness :
    processSections ((("X").toList) ++ (atEndsection ++ ("Y").toList)) (("p").toList) =
      .error (.unclosedSection (("p").toList)) ∧
    compileStr (fun _ => false) (("t").toList) [] 2
        (("@if(.x)\nA").toList) (("p").toList) =
      some (.error .hostSyntax) :=
  ⟨(claim_C3_unbalanced_error).1 (("X").toList) (("Y").toList) (("p").toList)
     (by decide) (by decide),
   (claim_C3_unbalanced_error).2.2.1 (fun _ => false) rfl⟩

/-! ## C2 and C8: concrete evaluations of the variable and comment passes -/

/-- **C2.** The variable-interpolation pass does not produce an escaped
output call: `\x7b\x7b $user.Name \x7d\x7d` becomes the plain action
`\x7b\x7b .user.Name \x7d\x7d` and `\x7b\x7b- $name -\x7d\x7d` (the
input of the repo's own expressions test, which expects `escape` in the
output) becomes `\x7b\x7b - .name - \x7d\x7d`; no `escape` call appears
in either result.  Only the raw half of the claim holds:
`\x7b!! $raw !!\x7d` becomes the raw-helper call `\x7b\x7braw .raw\x7d\x7d`. -/
theorem claim_C2_no_escape_call :
    processVariables (("\x7b\x7b $user.Name \x7d\x7d").toList) =
        ("\x7b\x7b .user.Name \x7d\x7d").toList ∧
      processVariables (("\x7b\x7b- $name -\x7d\x7d").toList) =
        ("\x7b\x7b - .name - \x7d\x7d").toList ∧
      containsSub (("escape").toList)
        (processVariables (("\x7b\x7b $user.Name \x7d\x7d").toList)) = false ∧
      containsSub (("escape").toList)
        (processVariables (("\x7b\x7b- $name -\x7d\x7d").toList)) = false ∧
      processRawVariables (("\x7b!! $raw !!\x7d").toList) =
        ("\x7b\x7braw .raw\x7d\x7d").toList :=
  ⟨by rfl, by rfl, by rfl, by rfl, by rfl⟩

/-- **C8.** Comment spans are not deleted by transpilation: the
variables pass (which runs before the comment pass) rewrites
`\x7b\x7b--note--\x7d\x7d` into `\x7b\x7b --note-- \x7d\x7d`, after
which the comment pass's `\x7b\x7b--` literal no longer occurs, so the
comment survives in the transpiled output.  The comment pass by itself
would have deleted the span (second conjunct), confirming the intent
that the pass ordering defeats. -/
theorem claim_C8_comment_not_deleted :
    processAllDirectives (fun _ => none) (("t").toList) []
        (("A\x7b\x7b--note--\x7d\x7dB").toList) (("p").toList) =
        some (.ok (("A\x7b\x7b --note-- \x7d\x7dB").toList)) ∧
      processComments (("A\x7b\x7b--note--\x7d\x7dB").toList) = ("AB").toList ∧
      containsSub comOpen (("A\x7b\x7b --note-- \x7d\x7dB").toList) = false :=
  ⟨by rfl, by rfl, by rfl⟩

end Blade
